import Mathlib

/-!
Verification development for the `charrain` digital-rain engine
(`src/charrain.c` of the fakesteak repository).

The engine's data model (packed 16-bit cells inside a `matrix_s` record),
the cell codec (`val_new` / `val_get_*`), the grid accessors
(`mat_get_value` / `mat_set_value` and friends), the rain state machine
(`mat_add_drop`, `mat_mov_col`, `mat_update`), the glitch mutator
(`mat_glitch`) and the background fill (`mat_fill`) are embedded shallowly
below, one Lean definition per C function, in source order.

Conventions of the embedding:

* machine integers are modelled as `Nat` / `Int`; the `size_t` arithmetic
  on `drop_count` in `mat_update` wraps modulo `2^64` and is modelled
  explicitly so (`sub64`, and `% 2^64` on the increment);
* C `int` coordinates are modelled as `Int` where signedness matters
  (`mat_get_value_c`, `mat_set_value_c`, the `row` cursor of
  `mat_add_drop`); the internal grid operations, which are only ever
  reached with non-negative coordinates, work on `Nat` coordinates and
  are glued to the `Int` versions by `mat_get_value_c_eq_nat` and
  `mat_set_value_c_eq_nat`;
* the `float` computations of the source are modelled exactly: `Q` is an
  exact (unreduced) fraction of integers and `f32round` rounds an exact
  rational to the nearest IEEE-754 binary32 value (round to nearest, ties
  to even, normal range), which is what the hardware does for every
  conversion, multiplication and division the source performs.  `f32round`
  maps non-positive inputs to `0`; in this program the only non-positive
  value that ever reaches it is `0` itself (all operands are unsigned
  counts or non-negative fractions), for which this is exact;
* `rand()` is modelled by oracle streams (one per operation), consumed in
  the call order of the source.  `rand_int lo hi` of the source is
  `lo + rand() % (hi + 1 - lo)` and is modelled verbatim.
-/

set_option maxRecDepth 1000000

namespace Charrain

/-! ## Exact fraction arithmetic

`Q` is an exact, *unreduced* fraction.  Keeping fractions unreduced means
every operation below is a plain `Int` computation, so concrete runs of
the embedded program can be evaluated by `decide`.  `qval` interprets a
fraction in `ℚ`; all general lemmas are stated through `qval`. -/

structure Q where
  num : Int
  den : Int
deriving DecidableEq

/-- The rational value denoted by a fraction. -/
def qval (q : Q) : ℚ := (q.num : ℚ) / (q.den : ℚ)

/-- Embed a natural number. -/
def qofN (n : Nat) : Q := ⟨n, 1⟩

/-- Exact product of fractions. -/
def qmul (a b : Q) : Q := ⟨a.num * b.num, a.den * b.den⟩

/-- Exact quotient of fractions (used only with positive divisors). -/
def qdiv (a b : Q) : Q := ⟨a.num * b.den, a.den * b.num⟩

/-- The power `2^e` as a fraction, for any integer `e`. -/
def qp2 (e : Int) : Q :=
  if 0 ≤ e then ⟨((2 ^ e.toNat : Nat) : Int), 1⟩
  else ⟨1, ((2 ^ (-e).toNat : Nat) : Int)⟩

/-- Floor of a fraction with positive denominator. -/
def qfloor (q : Q) : Int := q.num.fdiv q.den

/-- Ceiling of a fraction with positive denominator. -/
def qceil (q : Q) : Int := -((-q.num).fdiv q.den)

/-- Truncation toward zero followed by clamping at zero; this is the
composition of C's `(size_t)` / `(int)` cast (for the non-negative values
the program produces) with the way every use site treats a negative count
(a `for` loop that then performs no iterations). -/
def qtruncN (q : Q) : Nat := (qfloor q).toNat

/-- Base-2 integer logarithm by explicit fuel (structural recursion, so
that the kernel can evaluate it on literals). -/
def ilog2F : Nat → Nat → Nat
  | 0, _ => 0
  | f + 1, n => if n ≤ 1 then 0 else ilog2F f (n / 2) + 1

/-- Base-2 integer logarithm: `2 ^ ilog2 n ≤ n < 2 ^ (ilog2 n + 1)` for
`n ≥ 1` (`ilog2F_correct`). -/
def ilog2 (n : Nat) : Nat := ilog2F n n

/-- Round a fraction (with positive denominator) to the nearest integer,
ties to even.  `2 * (q.num - ⌊q⌋ * q.den) ⋚ q.den` compares the
fractional part of `q` with `1/2` without leaving `Int`. -/
def rne (q : Q) : Int :=
  if 2 * (q.num - qfloor q * q.den) < q.den then qfloor q
  else if q.den < 2 * (q.num - qfloor q * q.den) then qfloor q + 1
  else if qfloor q % 2 = 0 then qfloor q else qfloor q + 1

/-- First guess for the binade exponent of a positive fraction, from the
integer logarithms of numerator and denominator; it is off by at most one
(`qexpGuess_bounds`). -/
def qexpGuess (q : Q) : Int :=
  (ilog2 q.num.toNat : Int) - (ilog2 q.den.toNat : Int)

/-- The binade exponent of a positive fraction: the unique `e` with
`2^e ≤ q < 2^(e+1)` (`qexp_correct`), obtained by correcting the guess. -/
def qexp (q : Q) : Int :=
  if q.num * (qp2 (qexpGuess q)).den < (qp2 (qexpGuess q)).num * q.den then qexpGuess q - 1
  else if q.num * (qp2 (qexpGuess q + 1)).den < (qp2 (qexpGuess q + 1)).num * q.den then
    qexpGuess q
  else qexpGuess q + 1

/-- Round an exact rational to the nearest IEEE-754 binary32 value
(round to nearest, ties to even; normal range, which covers every value
this program computes).  Non-positive inputs are mapped to `0`; in this
program only `0` itself ever reaches this branch. -/
def f32round (q : Q) : Q :=
  if q.num ≤ 0 then ⟨0, 1⟩
  else qmul ⟨rne (qmul q (qp2 (23 - qexp q))), 1⟩ (qp2 (qexp q - 23))

/-- C's conversion `(float) n` of an unsigned integer. -/
def f32ofN (n : Nat) : Q := f32round (qofN n)

/-- C's single-precision multiplication: round the exact product. -/
def f32mul (a b : Q) : Q := f32round (qmul a b)

/-- C's single-precision division: round the exact quotient. -/
def f32div (a b : Q) : Q := f32round (qdiv a b)

/-! ## Cell codec (`val_new`, `val_get_ascii`, `val_get_state`,
`val_get_tsize`)

A cell is a `uint16_t`: bits 0-7 the ASCII code, bits 8-9 the state, bits
10-15 the TSIZE field (tail length of a DROP, colour index of a TAIL).
The C operands are promoted to `int` before shifting and masking and the
result is converted back to `uint16_t`; the final `% 65536` is that
conversion. -/

def BITMASK_ASCII : Nat := 0x00FF
def BITMASK_STATE : Nat := 0x0300
def BITMASK_TSIZE : Nat := 0xFC00

def STATE_NONE : Nat := 0
def STATE_DROP : Nat := 1
def STATE_TAIL : Nat := 2

def TSIZE_MIN : Nat := 8
def TSIZE_MAX : Nat := 63

def ASCII_MIN : Nat := 32
def ASCII_MAX : Nat := 126

/-- `val_new` of the source: pack (ascii, state, tsize) into one 16-bit
cell value. -/
def val_new (ascii state tsize : Nat) : Nat :=
  ((BITMASK_TSIZE &&& (tsize <<< 10)) ||| (BITMASK_STATE &&& (state <<< 8)) ||| ascii) % 65536

/-- `val_get_ascii` of the source (the result is `< 256`, so the C
`uint8_t` return conversion is the identity). -/
def val_get_ascii (value : Nat) : Nat := value &&& BITMASK_ASCII

/-- `val_get_state` of the source. -/
def val_get_state (value : Nat) : Nat := (value &&& BITMASK_STATE) >>> 8

/-- `val_get_tsize` of the source. -/
def val_get_tsize (value : Nat) : Nat := (value &&& BITMASK_TSIZE) >>> 10

/-- `rand_int` of the source: `min + rand() % ((max + 1) - min)`, applied
to a raw draw `r`. -/
def rand_int (r lo hi : Nat) : Nat := lo + r % (hi + 1 - lo)

/-- `rand_int_mincap` of the source: `rand() % max`, clamped from below
to `min`. -/
def rand_int_mincap (r lo hi : Nat) : Nat :=
  let x := r % hi
  if x < lo then lo else x

/-- `rand_ascii` of the source. -/
def rand_ascii (r : Nat) : Nat := rand_int_mincap r ASCII_MIN ASCII_MAX

/-! ## The matrix record and its accessors -/

/-- `matrix_s` of the source: a flat row-major buffer of packed cells,
the dimensions, the running drop counter (`size_t`) and the target drop
ratio (a `float`, represented by its exact rational value). -/
structure matrix_s where
  data : List Nat
  cols : Nat
  rows : Nat
  drop_count : Nat
  drop_ratio : Q
deriving DecidableEq

/-- The allocation invariant: the buffer holds exactly `rows * cols`
cells (established by `mat_init` and preserved by every operation). -/
def mat_wf (m : matrix_s) : Prop := m.data.length = m.rows * m.cols

/-- `mat_idx` of the source, for non-negative coordinates. -/
def mat_idx (m : matrix_s) (row col : Nat) : Nat := row * m.cols + col

/-- `mat_get_value` of the source with its exact C `int` signature.  The
source checks only `row >= mat->rows` and `col >= mat->cols` (signed
comparisons, since the `uint16_t` fields promote to `int`), then reads
`data[row * cols + col]`.  A read outside the allocated buffer is
undefined behaviour, modelled as `none`; a read inside the buffer (which
negative `col` can produce for positive `row`) returns that element. -/
def mat_get_value_c (m : matrix_s) (row col : Int) : Option Nat :=
  if (m.rows : Int) ≤ row then some 0
  else if (m.cols : Int) ≤ col then some 0
  else
    let idx := row * (m.cols : Int) + col
    if 0 ≤ idx ∧ idx < (m.data.length : Int) then some (m.data.getD idx.toNat 0)
    else none

/-- `mat_set_value` of the source with its exact C `int` signature; the
out-of-buffer write is undefined behaviour, modelled as `none`. -/
def mat_set_value_c (m : matrix_s) (row col : Int) (value : Nat) : Option matrix_s :=
  if (m.rows : Int) ≤ row then some m
  else if (m.cols : Int) ≤ col then some m
  else
    let idx := row * (m.cols : Int) + col
    if 0 ≤ idx ∧ idx < (m.data.length : Int) then
      some { m with data := m.data.set idx.toNat value }
    else none

/-- `mat_get_value` on `Nat` coordinates (every internal call site of the
source passes non-negative coordinates; `mat_get_value_c_eq_nat` glues
this to the C `int` version). -/
def mat_get_value (m : matrix_s) (row col : Nat) : Nat :=
  if m.rows ≤ row then 0
  else if m.cols ≤ col then 0
  else m.data.getD (mat_idx m row col) 0

/-- `mat_get_ascii` of the source. -/
def mat_get_ascii (m : matrix_s) (row col : Nat) : Nat :=
  val_get_ascii (mat_get_value m row col)

/-- `mat_get_state` of the source. -/
def mat_get_state (m : matrix_s) (row col : Nat) : Nat :=
  val_get_state (mat_get_value m row col)

/-- `mat_get_tsize` of the source. -/
def mat_get_tsize (m : matrix_s) (row col : Nat) : Nat :=
  val_get_tsize (mat_get_value m row col)

/-- `mat_set_value` on `Nat` coordinates. -/
def mat_set_value (m : matrix_s) (row col : Nat) (value : Nat) : matrix_s :=
  if m.rows ≤ row then m
  else if m.cols ≤ col then m
  else { m with data := m.data.set (mat_idx m row col) value }

/-- `mat_set_ascii` of the source: re-encode the cell with a new ASCII
code, keeping state and tsize. -/
def mat_set_ascii (m : matrix_s) (row col ascii : Nat) : matrix_s :=
  let value := mat_get_value m row col
  mat_set_value m row col (val_new ascii (val_get_state value) (val_get_tsize value))

/-- `mat_set_state` of the source: re-encode the cell with a new state;
setting `STATE_NONE` also resets the tsize field to `0`. -/
def mat_set_state (m : matrix_s) (row col state : Nat) : matrix_s :=
  let value := mat_get_value m row col
  let tsize := if state = STATE_NONE then 0 else val_get_tsize value
  mat_set_value m row col (val_new (val_get_ascii value) state tsize)

/-- `mat_set_tsize` of the source. -/
def mat_set_tsize (m : matrix_s) (row col tsize : Nat) : matrix_s :=
  let value := mat_get_value m row col
  mat_set_value m row col (val_new (val_get_ascii value) (val_get_state value) tsize)

/-! ## Glitch mutator (`mat_glitch`) -/

/-- The number of glitch draws: `(int) (fraction * (rows * cols))`, the
multiplication performed in single precision. -/
def mat_glitch_num (m : matrix_s) (fraction : Q) : Nat :=
  qtruncN (f32mul fraction (f32ofN (m.rows * m.cols)))

/-- The first `n` glitch draws, in loop order; draw `i` consumes raw
draws `g (3*i)` (row), `g (3*i+1)` (column), `g (3*i+2)` (character). -/
def mat_glitch_go (m : matrix_s) (g : Nat → Nat) : Nat → matrix_s
  | 0 => m
  | i + 1 =>
    let m' := mat_glitch_go m g i
    mat_set_ascii m' (g (3 * i) % m'.rows) (g (3 * i + 1) % m'.cols)
      (rand_ascii (g (3 * i + 2)))

/-- `mat_glitch` of the source. -/
def mat_glitch (m : matrix_s) (fraction : Q) (g : Nat → Nat) : matrix_s :=
  mat_glitch_go m g (mat_glitch_num m fraction)

/-! ## Drop placement (`mat_put_cell_drop`, `mat_put_cell_tail`,
`mat_add_drop`, `mat_rain`) -/

/-- Number of entries of the `colors` palette of the source
(`{231, 48, 41, 35, 29, 238}`). -/
def NUM_COLORS : Nat := 6

/-- `mat_put_cell_drop` of the source. -/
def mat_put_cell_drop (m : matrix_s) (row col tsize : Nat) : matrix_s :=
  mat_set_tsize (mat_set_state m row col STATE_DROP) row col tsize

/-- The colour index computed by `mat_put_cell_tail`:
`ceil((NUM_COLORS-1) * ((float) tnext / (float) tsize))`, with the
division and multiplication in single precision and the `ceil` exact
(it is performed in double precision on an exactly-converted operand). -/
def tail_color (tsize tnext : Nat) : Nat :=
  (qceil (f32mul (f32ofN (NUM_COLORS - 1)) (f32div (f32ofN tnext) (f32ofN tsize)))).toNat

/-- `mat_put_cell_tail` of the source. -/
def mat_put_cell_tail (m : matrix_s) (row col tsize tnext : Nat) : matrix_s :=
  mat_set_tsize (mat_set_state m row col STATE_TAIL) row col (tail_color tsize tnext)

/-- The loop of `mat_add_drop`: `n` is the number of remaining iterations
(`i <= tsize` in the source, i.e. `tsize + 1` in total), `row` the signed
row cursor which decreases by one per iteration.  `row < 0` breaks out of
the loop; `row >= rows` skips the write (and the counter increment) but
keeps iterating; step `0` writes the DROP cell and increments
`drop_count` (a `size_t`, hence the `% 2^64`), later steps write TAIL
cells with tail step index `i`. -/
def mat_add_drop_go (col tsize : Nat) : Nat → matrix_s → Int → Nat → matrix_s
  | 0, m, _, _ => m
  | n + 1, m, row, i =>
    if row < 0 then m
    else
      let m' :=
        if (m.rows : Int) ≤ row then m
        else if i = 0 then
          let md := mat_put_cell_drop m row.toNat col tsize
          { md with drop_count := (md.drop_count + 1) % 2 ^ 64 }
        else mat_put_cell_tail m row.toNat col tsize i
      mat_add_drop_go col tsize n m' (row - 1) (i + 1)

/-- `mat_add_drop` of the source. -/
def mat_add_drop (m : matrix_s) (row : Int) (col tsize : Nat) : matrix_s :=
  mat_add_drop_go col tsize (tsize + 1) m row 0

/-- The number of drops placed by `mat_rain`:
`(int) (mat->cols * mat->rows) * mat->drop_ratio` (the cast binds to the
integer product; the assignment truncates the single-precision product). -/
def mat_rain_num (m : matrix_s) : Nat :=
  qtruncN (f32mul (f32ofN (m.cols * m.rows)) m.drop_ratio)

/-- The first `n` drops placed by `mat_rain`; drop `i` consumes the
oracle triple `g i` = (column draw, row draw, tail-length draw). -/
def mat_rain_go (m : matrix_s) (g : Nat → Nat × Nat × Nat) : Nat → matrix_s
  | 0 => m
  | i + 1 =>
    let m' := mat_rain_go m g i
    let c := rand_int (g i).1 0 (m'.cols - 1)
    let r := rand_int (g i).2.1 0 (m'.rows - 1)
    mat_add_drop m' r c (rand_int (g i).2.2 TSIZE_MIN TSIZE_MAX)

/-- `mat_rain` of the source (the resize-time "instant rain" fill). -/
def mat_rain (m : matrix_s) (g : Nat → Nat × Nat × Nat) : matrix_s :=
  mat_rain_go m g (mat_rain_num m)

/-! ## Column advance (`mat_mov_col`) and the tick (`mat_update`) -/

/-- One iteration of the `mat_mov_col` scan at `row`, with the carried
loop state `(tail_size, tail_seen, state)` (the last two are `uint8_t`,
hence the `% 256` on the increment).  A non-NONE cell is moved one row
down (the write at `row + 1` is discarded by the bounds guard when
`row + 1 = rows`) and the source cell is cleared. -/
def mat_mov_col_step (m : matrix_s) (col row : Nat) (carry : Nat × Nat × Nat) :
    matrix_s × (Nat × Nat × Nat) :=
  let value := mat_get_value m row col
  let state := val_get_state value
  let tsize := val_get_tsize value
  if state = STATE_NONE then (m, (carry.1, carry.2.1, state))
  else
    let m1 := mat_set_tsize (mat_set_state m (row + 1) col state) (row + 1) col tsize
    let m2 := mat_set_tsize (mat_set_state m1 row col STATE_NONE) row col 0
    if state = STATE_DROP then (m2, (tsize, 0, state))
    else if state = STATE_TAIL ∧ carry.1 ≠ 0 then
      (m2, (carry.1, (carry.2.1 + 1) % 256, state))
    else (m2, (carry.1, carry.2.1, state))

/-- The first `k` iterations of the `mat_mov_col` scan: the source walks
`row = rows - 1` down to `0`, so iteration `k + 1` processes row
`rows - 1 - k`. -/
def mat_mov_col_go (m : matrix_s) (col : Nat) : Nat → matrix_s × (Nat × Nat × Nat)
  | 0 => (m, (0, 0, STATE_NONE))
  | k + 1 =>
    let p := mat_mov_col_go m col k
    mat_mov_col_step p.1 col (m.rows - 1 - k) p.2

/-- `mat_mov_col` of the source: notes whether the bottom cell held a
DROP (the return value), scans the column bottom-to-top moving every
non-NONE cell one row down, and finally synthesizes one TAIL cell at the
top when the last drop's tail has not fully scrolled in. -/
def mat_mov_col (m : matrix_s) (col : Nat) : matrix_s × Nat :=
  let dropped := if mat_get_state m (m.rows - 1) col = STATE_DROP then 1 else 0
  let p := mat_mov_col_go m col m.rows
  let m' :=
    if p.2.2.2 ≠ STATE_NONE ∧ p.2.2.1 < p.2.1 then
      mat_put_cell_tail p.1 0 col p.2.1 (p.2.2.1 + 1)
    else p.1
  (m', dropped)

/-- The wrapping `size_t` subtraction `a - b` of the source
(`drop_count -= mat_mov_col(...)`). -/
def sub64 (a b : Nat) : Nat := (a % 2 ^ 64 + (2 ^ 64 - b % 2 ^ 64)) % 2 ^ 64

/-- `drops_desired` of `mat_update`:
`(size_t) ((mat->cols * mat->rows) * mat->drop_ratio)` with the product
in single precision. -/
def mat_update_desired (m : matrix_s) : Nat :=
  qtruncN (f32mul (f32ofN (m.cols * m.rows)) m.drop_ratio)

/-- `drops_missing` of `mat_update`: the `size_t` subtraction
`drops_desired - drop_count`, which wraps modulo `2^64` when
`drop_count > drops_desired`. -/
def mat_update_missing (m : matrix_s) : Nat :=
  sub64 (mat_update_desired m) m.drop_count

/-- `drops_to_add` of `mat_update`:
`(size_t) ((float) drops_missing / (float) mat->rows)`. -/
def mat_update_to_add (m : matrix_s) : Nat :=
  qtruncN (f32div (f32ofN (mat_update_missing m)) (f32ofN m.rows))

/-- The number of spawn attempts a tick makes: the spawn loop runs
`i = 0 .. drops_to_add` inclusive. -/
def spawn_attempts (m : matrix_s) : Nat := mat_update_to_add m + 1

/-- The first `n` spawn attempts of `mat_update`; attempt `i` draws a
column and a tail length from the oracle pair `g i` and places a drop at
row `0`. -/
def mat_update_spawn_go (m : matrix_s) (g : Nat → Nat × Nat) : Nat → matrix_s
  | 0 => m
  | i + 1 =>
    let m' := mat_update_spawn_go m g i
    let col := rand_int (g i).1 0 (m'.cols - 1)
    mat_add_drop m' 0 col (rand_int (g i).2 TSIZE_MIN TSIZE_MAX)

/-- The spawn phase of `mat_update`. -/
def mat_update_spawn (m : matrix_s) (g : Nat → Nat × Nat) : matrix_s :=
  mat_update_spawn_go m g (spawn_attempts m)

/-- One iteration of the advance loop of `mat_update`:
`mat->drop_count -= mat_mov_col(mat, col)`. -/
def mat_advance_step (m : matrix_s) (col : Nat) : matrix_s :=
  let p := mat_mov_col m col
  { p.1 with drop_count := sub64 p.1.drop_count p.2 }

/-- The advance loop of `mat_update` over columns `col, col+1, ...`
(`n` columns remaining). -/
def mat_advance_go (m : matrix_s) : Nat → Nat → matrix_s
  | _, 0 => m
  | col, n + 1 => mat_advance_go (mat_advance_step m col) (col + 1) n

/-- The advance phase of `mat_update`: every column is advanced once,
left to right, and `drop_count` gives up the drops that fell off. -/
def mat_advance (m : matrix_s) : matrix_s := mat_advance_go m 0 m.cols

/-- `mat_update` of the source: one tick, spawn phase then advance
phase. -/
def mat_update (m : matrix_s) (g : Nat → Nat × Nat) : matrix_s :=
  mat_advance (mat_update_spawn m g)

/-! ## Background fill (`mat_fill`) -/

/-- The body of the `mat_fill` double loop at cell `(r, c)`: set the
state to NONE (which also zeroes the tsize field), then set a random
character.  Cell `(r, c)` consumes raw draw `g (r * cols + c)`, matching
the row-major loop order (one `rand()` per cell). -/
def mat_fill_cell (m : matrix_s) (g : Nat → Nat) (r c : Nat) : matrix_s :=
  mat_set_ascii (mat_set_state m r c STATE_NONE) r c (rand_ascii (g (r * m.cols + c)))

/-- The inner (column) loop of `mat_fill` over columns `0 .. n - 1` of
row `r`. -/
def mat_fill_col_go (m : matrix_s) (g : Nat → Nat) (r : Nat) : Nat → matrix_s
  | 0 => m
  | n + 1 => mat_fill_cell (mat_fill_col_go m g r n) g r n

/-- The outer (row) loop of `mat_fill` over rows `0 .. n - 1`. -/
def mat_fill_row_go (m : matrix_s) (g : Nat → Nat) : Nat → matrix_s
  | 0 => m
  | n + 1 =>
    let m' := mat_fill_row_go m g n
    mat_fill_col_go m' g n m'.cols

/-- `mat_fill` of the source. -/
def mat_fill (m : matrix_s) (g : Nat → Nat) : matrix_s :=
  mat_fill_row_go m g m.rows

/-! ## Derived observations and reachability -/

/-- The number of cells of the buffer that are in DROP state (the
quantity `drop_count` is supposed to track). -/
def mat_count_drops (m : matrix_s) : Nat :=
  m.data.countP (fun v => val_get_state v == STATE_DROP)

/-- The number of columns among `c, c+1, ..., c+n-1` whose bottom-row
cell is in DROP state: the total of the `dropped` flags the advance
loop collects from `mat_mov_col`. -/
def bottom_drops (m : matrix_s) : Nat → Nat → Nat
  | _, 0 => 0
  | c, n + 1 =>
    (if mat_get_state m (m.rows - 1) c = STATE_DROP then 1 else 0) +
      bottom_drops m (c + 1) n

/-- The grid invariant of the specification: every cell whose state is
NONE has a zero aux (tsize) field. -/
def StateAuxInv (m : matrix_s) : Prop :=
  ∀ v ∈ m.data, val_get_state v = STATE_NONE → val_get_tsize v = 0

/-- The grid states reachable by the engine: a freshly filled grid (the
program always calls `mat_fill` right after `mat_init`, whose buffer
holds `rows * cols` cells), evolved by ticks, glitches and resize
rains, with arbitrary random draws. -/
inductive Reachable : matrix_s → Prop
  | fill (m : matrix_s) (g : Nat → Nat) (hwf : mat_wf m) : Reachable (mat_fill m g)
  | update (m : matrix_s) (g : Nat → Nat × Nat) :
      Reachable m → Reachable (mat_update m g)
  | glitch (m : matrix_s) (f : Q) (g : Nat → Nat) :
      Reachable m → Reachable (mat_glitch m f g)
  | rain (m : matrix_s) (g : Nat → Nat × Nat × Nat) :
      Reachable m → Reachable (mat_rain m g)

/-! ## Concrete example grids (used by the concrete theorems below) -/

/-- An empty 10-row, 1-column grid (every cell a space in NONE state). -/
def g10 : matrix_s := ⟨List.replicate 10 (val_new 32 0 0), 1, 10, 0, ⟨1, 2⟩⟩

/-- `g10` after placing a drop at row 5 with tail length 3. -/
def g10d : matrix_s := mat_add_drop g10 5 0 3

/-- A 2-row, 4-column grid before its initial fill, ratio 1/2. -/
def c1base : matrix_s := ⟨List.replicate 8 0, 4, 2, 0, ⟨1, 2⟩⟩

/-- `c1base` freshly filled (the raw draw stream is all zeros, so every
cell is a space). -/
def c1m : matrix_s := mat_fill c1base (fun _ => 0)

/-- A 2-row, 2-column grid with ratio 1/64 and one drop already counted:
its target drop count is 0, below `drop_count`. -/
def c2m : matrix_s := ⟨List.replicate 4 32, 2, 2, 1, ⟨1, 64⟩⟩

/-- A 2-row, 2-column grid with ratio 1/2 and no drops counted. -/
def w2m : matrix_s := ⟨List.replicate 4 32, 2, 2, 0, ⟨1, 2⟩⟩

/-- A 2-row, 1-column grid whose bottom cell is a DROP (tail 8). -/
def c4m : matrix_s := ⟨[val_new 32 0 0, val_new 65 1 8], 1, 2, 1, ⟨1, 2⟩⟩

/-- A 2-row, 2-column grid whose cell (0, 1) holds the character 37:
the target of the misdirected read `get(1, -1)`. -/
def c5m : matrix_s :=
  ⟨[val_new 32 0 0, val_new 37 0 0, val_new 32 0 0, val_new 32 0 0], 2, 2, 0, ⟨1, 2⟩⟩

/-- A 31-row, 601-column grid (18631 cells): the single-precision product
18631 * (1801 / 2^25) rounds up to 1.0 although the exact product is
below 1. -/
def c9m : matrix_s := ⟨List.replicate 18631 (val_new 32 0 0), 601, 31, 0, ⟨1, 2⟩⟩

/-! ## Lemmas about the cell codec -/

theorem land_lor_distrib_right (a b c : Nat) :
    (a ||| b) &&& c = a &&& c ||| b &&& c := by
  apply Nat.eq_of_testBit_eq
  intro i
  simp [Bool.and_or_distrib_right]

theorem tsize_mask_shift : ∀ t < 256, BITMASK_TSIZE &&& (t <<< 10) = t % 64 * 1024 := by
  decide

theorem state_mask_shift : ∀ s < 256, BITMASK_STATE &&& (s <<< 8) = s % 4 * 256 := by
  decide

theorem mask_piece_tsize : ∀ x < 64,
    x * 1024 &&& BITMASK_ASCII = 0 ∧ x * 1024 &&& BITMASK_STATE = 0 ∧
    x * 1024 &&& BITMASK_TSIZE = x * 1024 := by decide

theorem mask_piece_state : ∀ y < 4,
    y * 256 &&& BITMASK_ASCII = 0 ∧ y * 256 &&& BITMASK_STATE = y * 256 ∧
    y * 256 &&& BITMASK_TSIZE = 0 := by decide

theorem mask_piece_ascii : ∀ c < 256,
    c &&& BITMASK_ASCII = c ∧ c &&& BITMASK_STATE = 0 ∧ c &&& BITMASK_TSIZE = 0 := by
  decide

theorem shift_piece_tsize : ∀ x < 64, (x * 1024) >>> 10 = x := by decide

theorem shift_piece_state : ∀ y < 4, (y * 256) >>> 8 = y := by decide

/-- The packed value before the `uint16_t` conversion, in arithmetic
layered form: the three fields occupy disjoint bit ranges. -/
theorem val_new_eq (ascii state tsize : Nat) (hs : state < 256) (ht : tsize < 256) :
    val_new ascii state tsize =
      (tsize % 64 * 1024 ||| state % 4 * 256 ||| ascii) % 65536 := by
  unfold val_new
  rw [tsize_mask_shift tsize ht, state_mask_shift state hs]

/-- The packed value is below `2^16`, so the C `uint16_t` conversion in
`val_new` does not truncate (for 8-bit inputs). -/
theorem val_new_lt (ascii state tsize : Nat) (ha : ascii < 256) :
    tsize % 64 * 1024 ||| state % 4 * 256 ||| ascii < 65536 := by
  have hx : tsize % 64 * 1024 < 2 ^ 16 := by
    have := Nat.mod_lt tsize (y := 64) (by norm_num)
    omega
  have hy : state % 4 * 256 < 2 ^ 16 := by
    have := Nat.mod_lt state (y := 4) (by norm_num)
    omega
  have hc : ascii < 2 ^ 16 := by omega
  have := Nat.or_lt_two_pow (Nat.or_lt_two_pow hx hy) hc
  omega

/-- Full characterization of the codec on 8-bit inputs: the ASCII byte is
stored exactly, the state and tsize fields are stored through their bit
masks, i.e. modulo 4 and modulo 64. -/
theorem val_new_decode (ascii state tsize : Nat) (ha : ascii < 256) (hs : state < 256)
    (ht : tsize < 256) :
    val_get_ascii (val_new ascii state tsize) = ascii ∧
    val_get_state (val_new ascii state tsize) = state % 4 ∧
    val_get_tsize (val_new ascii state tsize) = tsize % 64 := by
  have hx : tsize % 64 < 64 := Nat.mod_lt tsize (by norm_num)
  have hy : state % 4 < 4 := Nat.mod_lt state (by norm_num)
  have e1 := val_new_eq ascii state tsize hs ht
  have e2 := Nat.mod_eq_of_lt (val_new_lt ascii state tsize ha)
  have px := mask_piece_tsize (tsize % 64) hx
  have py := mask_piece_state (state % 4) hy
  have pc := mask_piece_ascii ascii ha
  refine ⟨?_, ?_, ?_⟩
  · rw [val_get_ascii, e1, e2, land_lor_distrib_right, land_lor_distrib_right,
      px.1, py.1, pc.1, Nat.zero_or, Nat.zero_or]
  · rw [val_get_state, e1, e2, land_lor_distrib_right, land_lor_distrib_right,
      px.2.1, py.2.1, pc.2.1, Nat.zero_or, Nat.or_zero]
    exact shift_piece_state (state % 4) hy
  · rw [val_get_tsize, e1, e2, land_lor_distrib_right, land_lor_distrib_right,
      px.2.2, py.2.2, pc.2.2, Nat.or_zero, Nat.or_zero]
    exact shift_piece_tsize (tsize % 64) hx

theorem val_get_ascii_lt (v : Nat) : val_get_ascii v < 256 := by
  have : v &&& BITMASK_ASCII ≤ BITMASK_ASCII := Nat.and_le_right
  unfold val_get_ascii
  unfold BITMASK_ASCII at *
  omega

theorem val_get_state_lt (v : Nat) : val_get_state v < 4 := by
  have h : v &&& BITMASK_STATE ≤ BITMASK_STATE := Nat.and_le_right
  have : (v &&& BITMASK_STATE) >>> 8 ≤ BITMASK_STATE >>> 8 := by
    simp only [Nat.shiftRight_eq_div_pow]
    exact Nat.div_le_div_right h
  unfold val_get_state
  unfold BITMASK_STATE at *
  omega

theorem val_get_tsize_lt (v : Nat) : val_get_tsize v < 64 := by
  have h : v &&& BITMASK_TSIZE ≤ BITMASK_TSIZE := Nat.and_le_right
  have : (v &&& BITMASK_TSIZE) >>> 10 ≤ BITMASK_TSIZE >>> 10 := by
    simp only [Nat.shiftRight_eq_div_pow]
    exact Nat.div_le_div_right h
  unfold val_get_tsize
  unfold BITMASK_TSIZE at *
  omega

/-- Decoding after encoding with in-range fields is the identity. -/
theorem val_decode_of_lt (ascii state tsize : Nat) (ha : ascii < 256) (hs : state < 4)
    (ht : tsize < 64) :
    val_get_ascii (val_new ascii state tsize) = ascii ∧
    val_get_state (val_new ascii state tsize) = state ∧
    val_get_tsize (val_new ascii state tsize) = tsize := by
  have h := val_new_decode ascii state tsize ha (by omega) (by omega)
  rwa [Nat.mod_eq_of_lt hs, Nat.mod_eq_of_lt ht] at h

/-! ## Lemmas about the grid accessors -/

theorem list_getD_set (l : List Nat) (i j v : Nat) :
    (l.set i v).getD j 0 = if i = j ∧ i < l.length then v else l.getD j 0 := by
  rw [List.getD_eq_getElem?_getD, List.getD_eq_getElem?_getD]
  by_cases h1 : i = j
  · subst h1
    by_cases h2 : i < l.length
    · simp [List.getElem?_set_self h2, h2]
    · rw [List.set_eq_of_length_le (Nat.le_of_not_lt h2)]
      simp [h2]
  · simp [List.getElem?_set_ne h1, h1]

theorem mat_idx_lt (m : matrix_s) {r c : Nat} (hr : r < m.rows) (hc : c < m.cols) :
    mat_idx m r c < m.rows * m.cols := by
  unfold mat_idx
  calc r * m.cols + c < r * m.cols + m.cols := by omega
    _ = (r + 1) * m.cols := by ring
    _ ≤ m.rows * m.cols := Nat.mul_le_mul_right _ hr

theorem mat_idx_inj (m : matrix_s) {r c r' c' : Nat} (hc : c < m.cols) (hc' : c' < m.cols) :
    mat_idx m r c = mat_idx m r' c' ↔ r = r' ∧ c = c' := by
  have hpos : 0 < m.cols := by omega
  constructor
  · intro h
    unfold mat_idx at h
    have e1 : (r * m.cols + c) / m.cols = r := by
      rw [Nat.mul_comm r, Nat.mul_add_div hpos, Nat.div_eq_of_lt hc]
      omega
    have e2 : (r' * m.cols + c') / m.cols = r' := by
      rw [Nat.mul_comm r', Nat.mul_add_div hpos, Nat.div_eq_of_lt hc']
      omega
    have hrr : r = r' := by rw [← e1, ← e2, h]
    subst hrr
    omega
  · rintro ⟨rfl, rfl⟩
    rfl

/-- Every field of the record other than the buffer, and the buffer
length, are untouched by `mat_set_value`. -/
theorem mat_set_value_fields (m : matrix_s) (r c v : Nat) :
    (mat_set_value m r c v).rows = m.rows ∧ (mat_set_value m r c v).cols = m.cols ∧
    (mat_set_value m r c v).drop_count = m.drop_count ∧
    (mat_set_value m r c v).drop_ratio = m.drop_ratio ∧
    (mat_set_value m r c v).data.length = m.data.length := by
  unfold mat_set_value
  split
  · exact ⟨rfl, rfl, rfl, rfl, rfl⟩
  split
  · exact ⟨rfl, rfl, rfl, rfl, rfl⟩
  · exact ⟨rfl, rfl, rfl, rfl, by simp⟩

theorem mat_set_value_wf (m : matrix_s) (r c v : Nat) (hwf : mat_wf m) :
    mat_wf (mat_set_value m r c v) := by
  have h := mat_set_value_fields m r c v
  unfold mat_wf at *
  rw [h.2.2.2.2, h.1, h.2.1, hwf]

/-- Writes with an out-of-range coordinate are no-ops. -/
theorem mat_set_value_oob (m : matrix_s) (r c v : Nat) (h : m.rows ≤ r ∨ m.cols ≤ c) :
    mat_set_value m r c v = m := by
  unfold mat_set_value
  by_cases h2 : m.rows ≤ r
  · rw [if_pos h2]
  · rw [if_neg h2, if_pos (by tauto)]

/-- Reads with an out-of-range coordinate return the zero cell. -/
theorem mat_get_value_oob (m : matrix_s) (r c : Nat) (h : m.rows ≤ r ∨ m.cols ≤ c) :
    mat_get_value m r c = 0 := by
  unfold mat_get_value
  by_cases h2 : m.rows ≤ r
  · rw [if_pos h2]
  · rw [if_neg h2, if_pos (by tauto)]

/-- The fundamental read-after-write law of the grid. -/
theorem mat_get_value_set (m : matrix_s) (r c v r' c' : Nat) (hwf : mat_wf m) :
    mat_get_value (mat_set_value m r c v) r' c' =
      if r = r' ∧ c = c' ∧ r < m.rows ∧ c < m.cols then v
      else mat_get_value m r' c' := by
  by_cases hr : m.rows ≤ r
  · rw [mat_set_value_oob m r c v (Or.inl hr), if_neg (by omega)]
  by_cases hc : m.cols ≤ c
  · rw [mat_set_value_oob m r c v (Or.inr hc), if_neg (by omega)]
  push_neg at hr hc
  have hset : mat_set_value m r c v = { m with data := m.data.set (mat_idx m r c) v } := by
    rw [mat_set_value, if_neg (by omega), if_neg (by omega)]
  by_cases hr' : m.rows ≤ r'
  · rw [hset, mat_get_value]
    dsimp only
    rw [if_pos hr', if_neg (by omega), mat_get_value_oob m r' c' (Or.inl hr')]
  by_cases hc' : m.cols ≤ c'
  · rw [hset, mat_get_value]
    dsimp only
    rw [if_neg hr', if_pos hc', if_neg (by omega), mat_get_value_oob m r' c' (Or.inr hc')]
  push_neg at hr' hc'
  rw [hset, mat_get_value]
  dsimp only [mat_idx]
  rw [if_neg (by omega), if_neg (by omega), list_getD_set, hwf]
  by_cases heq : r = r' ∧ c = c'
  · obtain ⟨rfl, rfl⟩ := heq
    rw [if_pos ⟨rfl, mat_idx_lt m hr hc⟩, if_pos ⟨rfl, rfl, hr, hc⟩]
  · have hne : (r * m.cols + c : Nat) ≠ r' * m.cols + c' := fun h =>
      heq ⟨((mat_idx_inj m hc hc').mp h).1, ((mat_idx_inj m hc hc').mp h).2⟩
    rw [if_neg (by tauto), if_neg (by tauto), mat_get_value, if_neg (by omega),
      if_neg (by omega)]
    rfl

/-- On `Nat` coordinates the defensive C `int` accessor agrees with the
`Nat` accessor (and in particular never hits undefined behaviour): the
glue between the two embeddings. -/
theorem mat_get_value_c_eq_nat (m : matrix_s) (r c : Nat) (hwf : mat_wf m) :
    mat_get_value_c m r c = some (mat_get_value m r c) := by
  by_cases hr : m.rows ≤ r
  · unfold mat_get_value_c mat_get_value
    rw [if_pos (by omega : (m.rows : Int) ≤ (r : Nat)), if_pos hr]
  by_cases hc : m.cols ≤ c
  · unfold mat_get_value_c mat_get_value
    rw [if_neg (by omega : ¬((m.rows : Int) ≤ (r : Nat))),
      if_pos (by omega : (m.cols : Int) ≤ (c : Nat)), if_neg hr, if_pos hc]
  push_neg at hr hc
  have hidx : ((r : Nat) : Int) * m.cols + ((c : Nat) : Int) = ((mat_idx m r c : Nat) : Int) := by
    unfold mat_idx
    push_cast
    ring
  have hlt : mat_idx m r c < m.data.length := by
    rw [hwf]; exact mat_idx_lt m hr hc
  unfold mat_get_value_c mat_get_value
  rw [if_neg (by omega : ¬((m.rows : Int) ≤ (r : Nat))),
    if_neg (by omega : ¬((m.cols : Int) ≤ (c : Nat))),
    if_neg (by omega : ¬(m.rows ≤ r)), if_neg (by omega : ¬(m.cols ≤ c))]
  dsimp only [mat_idx]
  rw [if_pos ⟨by omega, by omega⟩]
  rw [show ((r : Int) * m.cols + c) = ((mat_idx m r c : Nat) : Int) from hidx,
    Int.toNat_natCast]
  rfl

theorem mat_set_value_c_eq_nat (m : matrix_s) (r c v : Nat) (hwf : mat_wf m) :
    mat_set_value_c m r c v = some (mat_set_value m r c v) := by
  by_cases hr : m.rows ≤ r
  · unfold mat_set_value_c mat_set_value
    rw [if_pos (by omega : (m.rows : Int) ≤ (r : Nat)), if_pos hr]
  by_cases hc : m.cols ≤ c
  · unfold mat_set_value_c mat_set_value
    rw [if_neg (by omega : ¬((m.rows : Int) ≤ (r : Nat))),
      if_pos (by omega : (m.cols : Int) ≤ (c : Nat)), if_neg hr, if_pos hc]
  push_neg at hr hc
  have hidx : ((r : Nat) : Int) * m.cols + ((c : Nat) : Int) = ((mat_idx m r c : Nat) : Int) := by
    unfold mat_idx
    push_cast
    ring
  have hlt : mat_idx m r c < m.data.length := by
    rw [hwf]; exact mat_idx_lt m hr hc
  unfold mat_set_value_c mat_set_value
  rw [if_neg (by omega : ¬((m.rows : Int) ≤ (r : Nat))),
    if_neg (by omega : ¬((m.cols : Int) ≤ (c : Nat))),
    if_neg (by omega : ¬(m.rows ≤ r)), if_neg (by omega : ¬(m.cols ≤ c))]
  dsimp only [mat_idx]
  rw [if_pos ⟨by omega, by omega⟩]
  rw [show ((r : Int) * m.cols + c) = ((mat_idx m r c : Nat) : Int) from hidx,
    Int.toNat_natCast]
  rfl

/-! ## Effect of the field setters -/

theorem mat_set_ascii_value (m : matrix_s) (r c a r' c' : Nat) (hwf : mat_wf m) :
    mat_get_value (mat_set_ascii m r c a) r' c' =
      if r = r' ∧ c = c' ∧ r < m.rows ∧ c < m.cols then
        val_new a (mat_get_state m r c) (mat_get_tsize m r c)
      else mat_get_value m r' c' := by
  unfold mat_set_ascii mat_get_state mat_get_tsize
  exact mat_get_value_set m r c _ r' c' hwf

theorem mat_set_state_value (m : matrix_s) (r c s r' c' : Nat) (hwf : mat_wf m) :
    mat_get_value (mat_set_state m r c s) r' c' =
      if r = r' ∧ c = c' ∧ r < m.rows ∧ c < m.cols then
        val_new (mat_get_ascii m r c) s
          (if s = STATE_NONE then 0 else mat_get_tsize m r c)
      else mat_get_value m r' c' := by
  unfold mat_set_state mat_get_ascii mat_get_tsize
  exact mat_get_value_set m r c _ r' c' hwf

theorem mat_set_tsize_value (m : matrix_s) (r c t r' c' : Nat) (hwf : mat_wf m) :
    mat_get_value (mat_set_tsize m r c t) r' c' =
      if r = r' ∧ c = c' ∧ r < m.rows ∧ c < m.cols then
        val_new (mat_get_ascii m r c) (mat_get_state m r c) t
      else mat_get_value m r' c' := by
  unfold mat_set_tsize mat_get_ascii mat_get_state
  exact mat_get_value_set m r c _ r' c' hwf

theorem mat_set_ascii_fields (m : matrix_s) (r c a : Nat) :
    (mat_set_ascii m r c a).rows = m.rows ∧ (mat_set_ascii m r c a).cols = m.cols ∧
    (mat_set_ascii m r c a).drop_count = m.drop_count ∧
    (mat_set_ascii m r c a).drop_ratio = m.drop_ratio ∧
    (mat_set_ascii m r c a).data.length = m.data.length := by
  unfold mat_set_ascii
  exact mat_set_value_fields m r c _

theorem mat_set_state_fields (m : matrix_s) (r c s : Nat) :
    (mat_set_state m r c s).rows = m.rows ∧ (mat_set_state m r c s).cols = m.cols ∧
    (mat_set_state m r c s).drop_count = m.drop_count ∧
    (mat_set_state m r c s).drop_ratio = m.drop_ratio ∧
    (mat_set_state m r c s).data.length = m.data.length := by
  unfold mat_set_state
  exact mat_set_value_fields m r c _

theorem mat_set_tsize_fields (m : matrix_s) (r c t : Nat) :
    (mat_set_tsize m r c t).rows = m.rows ∧ (mat_set_tsize m r c t).cols = m.cols ∧
    (mat_set_tsize m r c t).drop_count = m.drop_count ∧
    (mat_set_tsize m r c t).drop_ratio = m.drop_ratio ∧
    (mat_set_tsize m r c t).data.length = m.data.length := by
  unfold mat_set_tsize
  exact mat_set_value_fields m r c _

theorem mat_set_state_wf (m : matrix_s) (r c s : Nat) (hwf : mat_wf m) :
    mat_wf (mat_set_state m r c s) := by
  have h := mat_set_state_fields m r c s
  unfold mat_wf at *
  rw [h.2.2.2.2, h.1, h.2.1, hwf]

theorem mat_set_tsize_wf (m : matrix_s) (r c t : Nat) (hwf : mat_wf m) :
    mat_wf (mat_set_tsize m r c t) := by
  have h := mat_set_tsize_fields m r c t
  unfold mat_wf at *
  rw [h.2.2.2.2, h.1, h.2.1, hwf]

theorem mat_set_ascii_wf (m : matrix_s) (r c a : Nat) (hwf : mat_wf m) :
    mat_wf (mat_set_ascii m r c a) := by
  have h := mat_set_ascii_fields m r c a
  unfold mat_wf at *
  rw [h.2.2.2.2, h.1, h.2.1, hwf]

theorem mat_set_state_oob (m : matrix_s) (r c s : Nat) (h : m.rows ≤ r ∨ m.cols ≤ c) :
    mat_set_state m r c s = m := by
  unfold mat_set_state
  exact mat_set_value_oob m r c _ h

theorem mat_set_tsize_oob (m : matrix_s) (r c t : Nat) (h : m.rows ≤ r ∨ m.cols ≤ c) :
    mat_set_tsize m r c t = m := by
  unfold mat_set_tsize
  exact mat_set_value_oob m r c _ h

theorem mat_set_ascii_oob (m : matrix_s) (r c a : Nat) (h : m.rows ≤ r ∨ m.cols ≤ c) :
    mat_set_ascii m r c a = m := by
  unfold mat_set_ascii
  exact mat_set_value_oob m r c _ h

/-- Effect of the write pair `mat_set_state` / `mat_set_tsize` at one
cell (the idiom the source uses to overwrite a whole cell while keeping
its character): the target cell now packs `(old ascii, s, t)`, everything
else is untouched. -/
theorem write_pair_value (m : matrix_s) (r c s t r' c' : Nat) (hwf : mat_wf m)
    (hs : s < 4) :
    mat_get_value (mat_set_tsize (mat_set_state m r c s) r c t) r' c' =
      if r = r' ∧ c = c' ∧ r < m.rows ∧ c < m.cols then
        val_new (mat_get_ascii m r c) s t
      else mat_get_value m r' c' := by
  by_cases hin : r < m.rows ∧ c < m.cols
  · have hwf1 : mat_wf (mat_set_state m r c s) := mat_set_state_wf m r c s hwf
    have hf := mat_set_state_fields m r c s
    have ha : mat_get_ascii m r c < 256 := val_get_ascii_lt _
    have ht' : (if s = STATE_NONE then 0 else mat_get_tsize m r c) < 64 := by
      split
      · norm_num
      · exact val_get_tsize_lt _
    have hdec := val_decode_of_lt (mat_get_ascii m r c) s
      (if s = STATE_NONE then 0 else mat_get_tsize m r c) ha hs ht'
    have hv1 : mat_get_value (mat_set_state m r c s) r c =
        val_new (mat_get_ascii m r c) s (if s = STATE_NONE then 0 else mat_get_tsize m r c) := by
      rw [mat_set_state_value m r c s r c hwf, if_pos ⟨rfl, rfl, hin.1, hin.2⟩]
    have e_a : mat_get_ascii (mat_set_state m r c s) r c = mat_get_ascii m r c := by
      rw [mat_get_ascii, hv1]
      exact hdec.1
    have e_s : mat_get_state (mat_set_state m r c s) r c = s := by
      rw [mat_get_state, hv1]
      exact hdec.2.1
    rw [mat_set_tsize_value _ r c t r' c' hwf1, hf.1, hf.2.1, e_a, e_s]
    by_cases htgt : r = r' ∧ c = c'
    · rw [if_pos ⟨htgt.1, htgt.2, hin.1, hin.2⟩, if_pos ⟨htgt.1, htgt.2, hin.1, hin.2⟩]
    · rw [if_neg (by tauto), if_neg (by tauto)]
      rw [mat_set_state_value m r c s r' c' hwf, if_neg (by tauto)]
  · have hoob : m.rows ≤ r ∨ m.cols ≤ c := by omega
    rw [mat_set_state_oob m r c s hoob, mat_set_tsize_oob m r c t hoob, if_neg (by tauto)]

/-- State observed after a write pair. -/
theorem write_pair_state (m : matrix_s) (r c s t r' c' : Nat) (hwf : mat_wf m)
    (hs : s < 4) (ht : t < 64) :
    mat_get_state (mat_set_tsize (mat_set_state m r c s) r c t) r' c' =
      if r = r' ∧ c = c' ∧ r < m.rows ∧ c < m.cols then s
      else mat_get_state m r' c' := by
  rw [mat_get_state, write_pair_value m r c s t r' c' hwf hs]
  split
  · exact (val_decode_of_lt _ s t (val_get_ascii_lt _) hs ht).2.1
  · rfl

/-- Tsize observed after a write pair. -/
theorem write_pair_tsize (m : matrix_s) (r c s t r' c' : Nat) (hwf : mat_wf m)
    (hs : s < 4) (ht : t < 64) :
    mat_get_tsize (mat_set_tsize (mat_set_state m r c s) r c t) r' c' =
      if r = r' ∧ c = c' ∧ r < m.rows ∧ c < m.cols then t
      else mat_get_tsize m r' c' := by
  rw [mat_get_tsize, write_pair_value m r c s t r' c' hwf hs]
  split
  · exact (val_decode_of_lt _ s t (val_get_ascii_lt _) hs ht).2.2
  · rfl

/-- A write pair never touches any character. -/
theorem write_pair_ascii (m : matrix_s) (r c s t r' c' : Nat) (hwf : mat_wf m)
    (hs : s < 4) (ht : t < 64) :
    mat_get_ascii (mat_set_tsize (mat_set_state m r c s) r c t) r' c' =
      mat_get_ascii m r' c' := by
  rw [mat_get_ascii, write_pair_value m r c s t r' c' hwf hs]
  split
  · rename_i h
    obtain ⟨rfl, rfl, -, -⟩ := h
    exact (val_decode_of_lt _ s t (val_get_ascii_lt _) hs ht).1
  · rfl

/-- `mat_set_ascii` never touches any state. -/
theorem mat_set_ascii_state (m : matrix_s) (r c a r' c' : Nat) (hwf : mat_wf m)
    (ha : a < 256) :
    mat_get_state (mat_set_ascii m r c a) r' c' = mat_get_state m r' c' := by
  rw [mat_get_state, mat_set_ascii_value m r c a r' c' hwf]
  split
  · rename_i h
    obtain ⟨rfl, rfl, -, -⟩ := h
    exact (val_decode_of_lt a _ _ ha (val_get_state_lt _) (val_get_tsize_lt _)).2.1
  · rfl

/-- `mat_set_ascii` never touches any tsize. -/
theorem mat_set_ascii_tsize (m : matrix_s) (r c a r' c' : Nat) (hwf : mat_wf m)
    (ha : a < 256) :
    mat_get_tsize (mat_set_ascii m r c a) r' c' = mat_get_tsize m r' c' := by
  rw [mat_get_tsize, mat_set_ascii_value m r c a r' c' hwf]
  split
  · rename_i h
    obtain ⟨rfl, rfl, -, -⟩ := h
    exact (val_decode_of_lt a _ _ ha (val_get_state_lt _) (val_get_tsize_lt _)).2.2
  · rfl

theorem rand_ascii_bounds (r : Nat) : 32 ≤ rand_ascii r ∧ rand_ascii r ≤ 125 := by
  unfold rand_ascii rand_int_mincap ASCII_MIN ASCII_MAX
  have : r % 126 < 126 := Nat.mod_lt r (by norm_num)
  dsimp only
  split <;> omega

/-! ## Properties of the binary32 rounding model -/

theorem ilog2F_correct : ∀ fuel n : Nat, 1 ≤ n → n < 2 ^ fuel →
    2 ^ ilog2F fuel n ≤ n ∧ n < 2 ^ (ilog2F fuel n + 1) := by
  intro fuel
  induction fuel with
  | zero =>
    intro n h1 h2
    simp at h2
    omega
  | succ f ih =>
    intro n h1 h2
    rw [ilog2F]
    by_cases hn : n ≤ 1
    · rw [if_pos hn]
      constructor
      · simpa using h1
      · norm_num
        omega
    · rw [if_neg hn]
      push_neg at hn
      have h1' : 1 ≤ n / 2 := by omega
      have h2' : n / 2 < 2 ^ f := by
        rw [pow_succ] at h2
        omega
      obtain ⟨hl, hr⟩ := ih (n / 2) h1' h2'
      rw [pow_succ] at hr
      constructor
      · rw [pow_succ]
        omega
      · rw [pow_succ, pow_succ]
        omega

theorem ilog2_correct (n : Nat) (h : 1 ≤ n) :
    2 ^ ilog2 n ≤ n ∧ n < 2 ^ (ilog2 n + 1) :=
  ilog2F_correct n n h (Nat.lt_two_pow n)

theorem qval_qofN (n : Nat) : qval (qofN n) = n := by
  simp [qval, qofN]

theorem qp2_den_pos (e : Int) : 0 < (qp2 e).den := by
  unfold qp2
  split
  · norm_num
  · dsimp only
    exact_mod_cast Nat.pos_pow_of_pos _ (by norm_num)

theorem qp2_num_pos (e : Int) : 0 < (qp2 e).num := by
  unfold qp2
  split
  · dsimp only
    exact_mod_cast Nat.pos_pow_of_pos _ (by norm_num)
  · norm_num

theorem qval_qp2 (e : Int) : qval (qp2 e) = (2 : ℚ) ^ e := by
  unfold qp2 qval
  by_cases h : 0 ≤ e
  · rw [if_pos h]
    dsimp only
    push_cast
    rw [← zpow_natCast (2 : ℚ) e.toNat, Int.toNat_of_nonneg h]
    simp
  · rw [if_neg h]
    dsimp only
    push_cast
    rw [← zpow_natCast (2 : ℚ) (-e).toNat, Int.toNat_of_nonneg (by omega)]
    rw [one_div, ← zpow_neg, neg_neg]

theorem qval_qmul (a b : Q) : qval (qmul a b) = qval a * qval b := by
  unfold qval qmul
  push_cast
  rw [div_mul_div_comm]

theorem qval_qdiv (a b : Q) (hbn : b.num ≠ 0) (had : a.den ≠ 0) (hbd : b.den ≠ 0) :
    qval (qdiv a b) = qval a / qval b := by
  unfold qval qdiv
  have h1 : (a.den : ℚ) ≠ 0 := by exact_mod_cast had
  have h2 : (b.den : ℚ) ≠ 0 := by exact_mod_cast hbd
  have h3 : (b.num : ℚ) ≠ 0 := by exact_mod_cast hbn
  push_cast
  field_simp

theorem qfloor_eq (q : Q) (h : 0 < q.den) : qfloor q = ⌊qval q⌋ := by
  have h1 : q.den * qfloor q + q.num.fmod q.den = q.num := Int.fdiv_add_fmod q.num q.den
  have h2 : 0 ≤ q.num.fmod q.den := Int.fmod_nonneg' q.num (by omega)
  have h3 : q.num.fmod q.den < q.den := Int.fmod_lt_of_pos q.num h
  have hdQ : (0 : ℚ) < (q.den : ℚ) := by exact_mod_cast h
  symm
  rw [Int.floor_eq_iff]
  unfold qval
  constructor
  · rw [le_div_iff₀ hdQ]
    have h5 : (qfloor q * q.den : ℤ) ≤ q.num := by nlinarith
    exact_mod_cast h5
  · rw [div_lt_iff₀ hdQ]
    have h5 : (q.num : ℤ) < (qfloor q + 1) * q.den := by nlinarith
    have h4 : (q.num : ℚ) < ((qfloor q + 1 : ℤ) : ℚ) * (q.den : ℚ) := by
      exact_mod_cast h5
    push_cast at h4 ⊢
    linarith

theorem qceil_eq (q : Q) (h : 0 < q.den) : qceil q = ⌈qval q⌉ := by
  have : qceil q = -(qfloor ⟨-q.num, q.den⟩) := rfl
  rw [this, qfloor_eq ⟨-q.num, q.den⟩ h]
  have : qval ⟨-q.num, q.den⟩ = -(qval q) := by
    unfold qval
    push_cast
    ring
  rw [this, Int.floor_neg, neg_neg]

theorem qtruncN_eq (q : Q) (h : 0 < q.den) : qtruncN q = (⌊qval q⌋).toNat := by
  unfold qtruncN
  rw [qfloor_eq q h]

theorem rne_cases (q : Q) : rne q = qfloor q ∨ rne q = qfloor q + 1 := by
  unfold rne
  split_ifs <;> simp

theorem rne_ge_floor (q : Q) : qfloor q ≤ rne q := by
  rcases rne_cases q with h | h <;> omega

theorem rne_int_le (q : Q) (h : 0 < q.den) (k : Int) (hk : (k : ℚ) ≤ qval q) :
    k ≤ rne q := by
  have h1 : k ≤ ⌊qval q⌋ := Int.le_floor.mpr hk
  have h2 := rne_ge_floor q
  rw [qfloor_eq q h] at h2
  omega

theorem rne_le_add_half (q : Q) (h : 0 < q.den) : (rne q : ℚ) ≤ qval q + 1 / 2 := by
  have hdQ : (0 : ℚ) < (q.den : ℚ) := by exact_mod_cast h
  have hfl : (qfloor q : ℚ) ≤ qval q := by
    rw [qfloor_eq q h]; exact Int.floor_le _
  have hq : qval q = (q.num : ℚ) / q.den := rfl
  unfold rne
  split_ifs with h1 h2 h3
  · linarith
  · have hcast : (q.den : ℚ) < 2 * ((q.num : ℚ) - (qfloor q : ℚ) * q.den) := by
      exact_mod_cast h2
    have hhalf : ((qfloor q : ℚ) + 1 / 2) * q.den ≤ (q.num : ℚ) := by nlinarith
    have hdiv : (qfloor q : ℚ) + 1 / 2 ≤ (q.num : ℚ) / q.den := by
      rw [le_div_iff₀ hdQ]
      exact hhalf
    rw [hq]
    push_cast
    linarith
  · linarith
  · have heqZ : 2 * (q.num - qfloor q * q.den) = q.den :=
      le_antisymm (not_lt.mp h2) (not_lt.mp h1)
    have heq : 2 * ((q.num : ℚ) - (qfloor q : ℚ) * q.den) = (q.den : ℚ) := by
      exact_mod_cast heqZ
    have hhalf : (q.num : ℚ) / q.den = (qfloor q : ℚ) + 1 / 2 := by
      rw [div_eq_iff (ne_of_gt hdQ)]
      nlinarith
    push_cast
    rw [hq, hhalf]
    linarith

theorem rne_eq_of_int (q : Q) (h : 0 < q.den) (k : Int) (hk : qval q = (k : ℚ)) :
    rne q = k := by
  have hdQ : (0 : ℚ) < (q.den : ℚ) := by exact_mod_cast h
  have hnum : q.num = k * q.den := by
    have h2 : (q.num : ℚ) = (k : ℚ) * q.den := by
      have h3 : (q.num : ℚ) / q.den = (k : ℚ) := hk
      field_simp at h3
      exact_mod_cast h3
    exact_mod_cast h2
  have hfl : qfloor q = k := by
    rw [qfloor_eq q h, hk, Int.floor_intCast]
  unfold rne
  rw [hfl, hnum]
  rw [if_pos (by simp [h] : 2 * (k * q.den - k * q.den) < q.den)]

theorem zpow_ofNat_q (k : Nat) : (2 : ℚ) ^ (k : Int) = ((2 ^ k : Nat) : ℚ) := by
  push_cast
  rw [zpow_natCast]

theorem zpow_toNat_q (e : Int) (he : 0 ≤ e) : (2 : ℚ) ^ e = ((2 ^ e.toNat : Nat) : ℚ) := by
  conv_lhs => rw [show e = (e.toNat : Int) from (Int.toNat_of_nonneg he).symm]
  rw [zpow_ofNat_q]

/-- The guessed binade brackets the value within one step on each side. -/
theorem qexpGuess_bounds (q : Q) (hn : 0 < q.num) (hd : 0 < q.den) :
    (2 : ℚ) ^ (qexpGuess q - 1) < qval q ∧ qval q < (2 : ℚ) ^ (qexpGuess q + 1) := by
  have ha1 : 1 ≤ q.num.toNat := by omega
  have hb1 : 1 ≤ q.den.toNat := by omega
  obtain ⟨ha_lo, ha_hi⟩ := ilog2_correct q.num.toNat ha1
  obtain ⟨hb_lo, hb_hi⟩ := ilog2_correct q.den.toNat hb1
  have hqa : (q.num : ℚ) = (q.num.toNat : ℚ) := by
    exact_mod_cast congrArg (fun z : Int => (z : ℚ)) (Int.toNat_of_nonneg (by omega)).symm
  have hqb : (q.den : ℚ) = (q.den.toNat : ℚ) := by
    exact_mod_cast congrArg (fun z : Int => (z : ℚ)) (Int.toNat_of_nonneg (by omega)).symm
  have hA_lo : (2 : ℚ) ^ ((ilog2 q.num.toNat : Nat) : Int) ≤ (q.num : ℚ) := by
    rw [hqa, zpow_ofNat_q]
    exact_mod_cast ha_lo
  have hA_hi : (q.num : ℚ) < (2 : ℚ) ^ (((ilog2 q.num.toNat : Nat) : Int) + 1) := by
    rw [hqa, show (((ilog2 q.num.toNat : Nat) : Int) + 1) = ((ilog2 q.num.toNat + 1 : Nat) : Int) by push_cast; ring,
      zpow_ofNat_q]
    exact_mod_cast ha_hi
  have hB_lo : (2 : ℚ) ^ ((ilog2 q.den.toNat : Nat) : Int) ≤ (q.den : ℚ) := by
    rw [hqb, zpow_ofNat_q]
    exact_mod_cast hb_lo
  have hB_hi : (q.den : ℚ) < (2 : ℚ) ^ (((ilog2 q.den.toNat : Nat) : Int) + 1) := by
    rw [hqb, show (((ilog2 q.den.toNat : Nat) : Int) + 1) = ((ilog2 q.den.toNat + 1 : Nat) : Int) by push_cast; ring,
      zpow_ofNat_q]
    exact_mod_cast hb_hi
  have hdQ : (0 : ℚ) < (q.den : ℚ) := by exact_mod_cast hd
  have hnQ : (0 : ℚ) < (q.num : ℚ) := by exact_mod_cast hn
  constructor
  · have hgoal : (2 : ℚ) ^ (qexpGuess q - 1) * (q.den : ℚ) < (q.num : ℚ) := by
      calc (2 : ℚ) ^ (qexpGuess q - 1) * (q.den : ℚ)
          < (2 : ℚ) ^ (qexpGuess q - 1) * (2 : ℚ) ^ (((ilog2 q.den.toNat : Nat) : Int) + 1) := by
            apply mul_lt_mul_of_pos_left hB_hi (by positivity)
        _ = (2 : ℚ) ^ ((ilog2 q.num.toNat : Nat) : Int) := by
            rw [← zpow_add₀ (two_ne_zero : (2 : ℚ) ≠ 0)]
            congr 1
            unfold qexpGuess
            omega
        _ ≤ (q.num : ℚ) := hA_lo
    unfold qval
    rw [lt_div_iff₀ hdQ]
    exact hgoal
  · have hgoal : (q.num : ℚ) < (2 : ℚ) ^ (qexpGuess q + 1) * (q.den : ℚ) := by
      calc (q.num : ℚ) < (2 : ℚ) ^ (((ilog2 q.num.toNat : Nat) : Int) + 1) := hA_hi
        _ = (2 : ℚ) ^ (qexpGuess q + 1) * (2 : ℚ) ^ ((ilog2 q.den.toNat : Nat) : Int) := by
            rw [← zpow_add₀ (two_ne_zero : (2 : ℚ) ≠ 0)]
            congr 1
            unfold qexpGuess
            omega
        _ ≤ (2 : ℚ) ^ (qexpGuess q + 1) * (q.den : ℚ) := by
            apply mul_le_mul_of_nonneg_left hB_lo (by positivity)
    unfold qval
    rw [div_lt_iff₀ hdQ]
    exact hgoal

/-- The integer comparison in `qexp` decides `qval q < 2^e`. -/
theorem qlt_qp2_iff (q : Q) (hd : 0 < q.den) (e : Int) :
    (q.num * (qp2 e).den < (qp2 e).num * q.den) ↔ qval q < (2 : ℚ) ^ e := by
  rw [← qval_qp2]
  unfold qval
  rw [div_lt_div_iff₀ (by exact_mod_cast hd) (by exact_mod_cast qp2_den_pos e)]
  exact_mod_cast Iff.rfl

theorem qexp_correct (q : Q) (hn : 0 < q.num) (hd : 0 < q.den) :
    (2 : ℚ) ^ qexp q ≤ qval q ∧ qval q < (2 : ℚ) ^ (qexp q + 1) := by
  obtain ⟨hlo, hhi⟩ := qexpGuess_bounds q hn hd
  unfold qexp
  split_ifs with h1 h2
  · rw [qlt_qp2_iff q hd _] at h1
    refine ⟨le_of_lt hlo, ?_⟩
    rw [sub_add_cancel]
    exact h1
  · rw [qlt_qp2_iff q hd _] at h1 h2
    exact ⟨not_lt.mp h1, h2⟩
  · rw [qlt_qp2_iff q hd _] at h2
    exact absurd hhi h2

theorem f32round_den_pos (q : Q) : 0 < (f32round q).den := by
  unfold f32round
  split
  · norm_num
  · show 0 < 1 * (qp2 (qexp q - 23)).den
    have := qp2_den_pos (qexp q - 23)
    omega

theorem f32round_eq (q : Q) (hn : 0 < q.num) :
    qval (f32round q) =
      (rne (qmul q (qp2 (23 - qexp q))) : ℚ) * (2 : ℚ) ^ (qexp q - 23) := by
  unfold f32round
  rw [if_neg (by omega), qval_qmul, qval_qp2]
  congr 1
  unfold qval
  simp

theorem f32round_num_pos (q : Q) (hn : 0 < q.num) (hd : 0 < q.den) :
    0 < (f32round q).num := by
  unfold f32round
  rw [if_neg (by omega)]
  show 0 < rne (qmul q (qp2 (23 - qexp q))) * (qp2 (qexp q - 23)).num
  apply mul_pos _ (qp2_num_pos _)
  have hxden : 0 < (qmul q (qp2 (23 - qexp q))).den := mul_pos hd (qp2_den_pos _)
  have hval : (1 : ℚ) ≤ qval (qmul q (qp2 (23 - qexp q))) := by
    rw [qval_qmul, qval_qp2]
    have h2e := (qexp_correct q hn hd).1
    have hp : (0 : ℚ) < (2 : ℚ) ^ (23 - qexp q : Int) := by positivity
    have hstep := mul_le_mul_of_nonneg_right h2e (le_of_lt hp)
    have hcancel : (2 : ℚ) ^ (qexp q) * (2 : ℚ) ^ (23 - qexp q : Int) = (2 : ℚ) ^ (23 : Int) := by
      rw [← zpow_add₀ (two_ne_zero : (2 : ℚ) ≠ 0)]
      congr 1
      omega
    rw [hcancel] at hstep
    have h23 : (2 : ℚ) ^ (0 : Int) ≤ (2 : ℚ) ^ (23 : Int) :=
      zpow_le_zpow_right₀ (by norm_num) (by omega)
    rw [zpow_zero] at h23
    linarith
  exact_mod_cast rne_int_le _ hxden 1 (by exact_mod_cast hval)

theorem f32round_exact_nat (n : Nat) (h : n < 2 ^ 24) : qval (f32round (qofN n)) = n := by
  rcases Nat.eq_zero_or_pos n with rfl | hpos
  · simp [f32round, qofN, qval]
  · have hn : 0 < (qofN n).num := by
      simp only [qofN]
      exact_mod_cast hpos
    have hd : 0 < (qofN n).den := by
      simp [qofN]
    have hq : qval (qofN n) = n := qval_qofN n
    obtain ⟨he_lo, he_hi⟩ := qexp_correct (qofN n) hn hd
    rw [hq] at he_lo he_hi
    have he0 : 0 ≤ qexp (qofN n) := by
      by_contra hneg
      push_neg at hneg
      have h1 : (2 : ℚ) ^ (qexp (qofN n) + 1) ≤ (2 : ℚ) ^ (0 : Int) :=
        zpow_le_zpow_right₀ (by norm_num) (by omega)
      have h2 : (1 : ℚ) ≤ (n : ℚ) := by exact_mod_cast hpos
      rw [zpow_zero] at h1
      linarith
    have he23 : qexp (qofN n) ≤ 23 := by
      by_contra h24
      push_neg at h24
      have h1 : (2 : ℚ) ^ (24 : Int) ≤ (2 : ℚ) ^ qexp (qofN n) :=
        zpow_le_zpow_right₀ (by norm_num) (by omega)
      have h2 : (n : ℚ) < (2 : ℚ) ^ (24 : Int) := by
        have h2' : (n : ℚ) < ((2 ^ 24 : Nat) : ℚ) := by exact_mod_cast h
        norm_num at h2' ⊢
        exact h2'
      linarith
    have hs_eq : (23 - qexp (qofN n) : Int) = (((23 - qexp (qofN n)).toNat : Nat) : Int) :=
      (Int.toNat_of_nonneg (by omega)).symm
    have hx_den : 0 < (qmul (qofN n) (qp2 (23 - qexp (qofN n)))).den :=
      mul_pos hd (qp2_den_pos _)
    have hx_val : qval (qmul (qofN n) (qp2 (23 - qexp (qofN n)))) =
        ((n * 2 ^ (23 - qexp (qofN n)).toNat : Nat) : ℚ) := by
      rw [qval_qmul, hq, qval_qp2, zpow_toNat_q _ (by omega)]
      push_cast
      ring
    have hrne : rne (qmul (qofN n) (qp2 (23 - qexp (qofN n)))) =
        ((n * 2 ^ (23 - qexp (qofN n)).toNat : Nat) : Int) := by
      apply rne_eq_of_int _ hx_den
      rw [hx_val]
      norm_cast
    rw [f32round_eq (qofN n) hn, hrne]
    push_cast
    rw [show (qexp (qofN n) - 23 : Int) = -(((23 - qexp (qofN n)).toNat : Nat) : Int) by omega]
    rw [zpow_neg, zpow_natCast]
    rw [mul_assoc, mul_inv_cancel₀ (by positivity), mul_one]

theorem f32round_le_two_mul (q : Q) (hn : 0 < q.num) (hd : 0 < q.den) :
    qval (f32round q) ≤ 2 * qval q := by
  obtain ⟨he_lo, he_hi⟩ := qexp_correct q hn hd
  have hx_den : 0 < (qmul q (qp2 (23 - qexp q))).den := mul_pos hd (qp2_den_pos _)
  have hx_val : qval (qmul q (qp2 (23 - qexp q))) = qval q * (2 : ℚ) ^ (23 - qexp q : Int) := by
    rw [qval_qmul, qval_qp2]
  have h1 : (rne (qmul q (qp2 (23 - qexp q))) : ℚ) ≤
      qval (qmul q (qp2 (23 - qexp q))) + 1 / 2 := rne_le_add_half _ hx_den
  have hp1 : (0 : ℚ) < (2 : ℚ) ^ (qexp q - 23 : Int) := by positivity
  rw [f32round_eq q hn]
  have h2 := mul_le_mul_of_nonneg_right h1 (le_of_lt hp1)
  have hcancel : (2 : ℚ) ^ (23 - qexp q : Int) * (2 : ℚ) ^ (qexp q - 23 : Int) = 1 := by
    rw [← zpow_add₀ (two_ne_zero : (2 : ℚ) ≠ 0)]
    norm_num
  have h3 : (qval (qmul q (qp2 (23 - qexp q))) + 1 / 2) * (2 : ℚ) ^ (qexp q - 23 : Int) =
      qval q + 1 / 2 * (2 : ℚ) ^ (qexp q - 23 : Int) := by
    rw [hx_val]
    calc (qval q * (2 : ℚ) ^ (23 - qexp q : Int) + 1 / 2) * (2 : ℚ) ^ (qexp q - 23 : Int)
        = qval q * ((2 : ℚ) ^ (23 - qexp q : Int) * (2 : ℚ) ^ (qexp q - 23 : Int)) +
            1 / 2 * (2 : ℚ) ^ (qexp q - 23 : Int) := by ring
      _ = qval q + 1 / 2 * (2 : ℚ) ^ (qexp q - 23 : Int) := by rw [hcancel, mul_one]
  have h4 : (1 / 2 : ℚ) * (2 : ℚ) ^ (qexp q - 23 : Int) = (2 : ℚ) ^ (qexp q - 24 : Int) := by
    rw [show (qexp q - 24 : Int) = (qexp q - 23) + (-1) by omega,
      zpow_add₀ (two_ne_zero : (2 : ℚ) ≠ 0)]
    norm_num
    ring
  have h5 : (2 : ℚ) ^ (qexp q - 24 : Int) ≤ (2 : ℚ) ^ qexp q :=
    zpow_le_zpow_right₀ (by norm_num) (by omega)
  linarith [h2, h3, h4, h5, he_lo]

theorem f32round_val_nonneg (q : Q) (hd : 0 < q.den) : 0 ≤ qval (f32round q) := by
  by_cases hn : q.num ≤ 0
  · unfold f32round
    rw [if_pos hn]
    show (0 : ℚ) ≤ (0 : Int) / (1 : Int)
    norm_num
  · push_neg at hn
    rw [f32round_eq q hn]
    apply mul_nonneg _ (le_of_lt (by positivity))
    have hx_den : 0 < (qmul q (qp2 (23 - qexp q))).den := mul_pos hd (qp2_den_pos _)
    have hval : (0 : ℚ) ≤ qval (qmul q (qp2 (23 - qexp q))) := by
      rw [qval_qmul, qval_qp2]
      apply mul_nonneg _ (le_of_lt (by positivity))
      unfold qval
      positivity
    exact_mod_cast rne_int_le _ hx_den 0 (by exact_mod_cast hval)

/-- Single-precision division of two exactly-representable naturals,
truncated, is exact integer division: for `m < 2^23` and `1 ≤ r < 2^16`
the rounding cannot cross an integer boundary. -/
theorem qtruncN_f32div (m r : Nat) (hm : m < 2 ^ 23) (hr1 : 1 ≤ r) (hr2 : r < 2 ^ 16) :
    qtruncN (f32div (f32ofN m) (f32ofN r)) = m / r := by
  rcases Nat.eq_zero_or_pos m with rfl | hmpos
  · have e1 : f32ofN 0 = ⟨0, 1⟩ := by
      simp [f32ofN, qofN, f32round]
    have e2 : (qdiv (⟨0, 1⟩ : Q) (f32ofN r)).num = 0 := by
      simp [qdiv]
    unfold f32div
    rw [e1]
    unfold f32round
    rw [if_pos (le_of_eq e2)]
    simp [qtruncN, qfloor]
  · have hrQ : (0 : ℚ) < (r : ℚ) := by
      exact_mod_cast Nat.lt_of_lt_of_le Nat.zero_lt_one hr1
    have hM_val : qval (f32ofN m) = m := f32round_exact_nat m (by omega)
    have hR_val : qval (f32ofN r) = r := f32round_exact_nat r (by omega)
    have hofm_num : 0 < (qofN m).num := by
      simp only [qofN]
      exact_mod_cast hmpos
    have hofm_den : 0 < (qofN m).den := by simp [qofN]
    have hofr_num : 0 < (qofN r).num := by
      simp only [qofN]
      exact_mod_cast Nat.lt_of_lt_of_le Nat.zero_lt_one hr1
    have hofr_den : 0 < (qofN r).den := by simp [qofN]
    have hM_num : 0 < (f32ofN m).num := f32round_num_pos _ hofm_num hofm_den
    have hR_num : 0 < (f32ofN r).num := f32round_num_pos _ hofr_num hofr_den
    have hM_den : 0 < (f32ofN m).den := f32round_den_pos _
    have hR_den : 0 < (f32ofN r).den := f32round_den_pos _
    have hqd_num : 0 < (qdiv (f32ofN m) (f32ofN r)).num := mul_pos hM_num hR_den
    have hqd_den : 0 < (qdiv (f32ofN m) (f32ofN r)).den := mul_pos hM_den hR_num
    have hq_val : qval (qdiv (f32ofN m) (f32ofN r)) = (m : ℚ) / r := by
      rw [qval_qdiv _ _ (by omega) (by omega) (by omega), hM_val, hR_val]
    have hdm := Nat.div_add_mod m r
    have hmod := Nat.mod_lt m (show 0 < r by omega)
    have hk_lo : ((m / r : Nat) : ℚ) ≤ (m : ℚ) / r := by
      rw [le_div_iff₀ hrQ]
      exact_mod_cast Nat.div_mul_le_self m r
    have hk_hi : (m : ℚ) / r ≤ ((m / r : Nat) : ℚ) + 1 - 1 / r := by
      rw [div_le_iff₀ hrQ]
      have hZ : (m : ℚ) + 1 ≤ ((m / r : Nat) : ℚ) * r + r := by
        have hcomm : m / r * r = r * (m / r) := Nat.mul_comm _ _
        exact_mod_cast (show m + 1 ≤ m / r * r + r by omega)
      have hinv : (1 / (r : ℚ)) * r = 1 := by field_simp
      nlinarith [hZ, hinv]
    obtain ⟨he_lo, he_hi⟩ := qexp_correct (qdiv (f32ofN m) (f32ofN r)) hqd_num hqd_den
    rw [hq_val] at he_lo he_hi
    have he23 : qexp (qdiv (f32ofN m) (f32ofN r)) ≤ 22 := by
      by_contra hgt
      push_neg at hgt
      have h1 : (2 : ℚ) ^ (23 : Int) ≤ (2 : ℚ) ^ qexp (qdiv (f32ofN m) (f32ofN r)) :=
        zpow_le_zpow_right₀ (by norm_num) (by omega)
      have h2 : (m : ℚ) / r < (2 : ℚ) ^ (23 : Int) := by
        have hds : (m : ℚ) / r ≤ m := div_le_self (by positivity) (by exact_mod_cast hr1)
        have hmQ : (m : ℚ) < ((2 ^ 23 : Nat) : ℚ) := by exact_mod_cast hm
        have hlit : (2 : ℚ) ^ (23 : Int) = ((2 ^ 23 : Nat) : ℚ) := by norm_num
        rw [hlit]
        linarith
      linarith
    have hs_eq : (23 - qexp (qdiv (f32ofN m) (f32ofN r)) : Int) =
        (((23 - qexp (qdiv (f32ofN m) (f32ofN r))).toNat : Nat) : Int) := by omega
    have hx_den : 0 < (qmul (qdiv (f32ofN m) (f32ofN r))
        (qp2 (23 - qexp (qdiv (f32ofN m) (f32ofN r))))).den :=
      mul_pos hqd_den (qp2_den_pos _)
    have hx_val : qval (qmul (qdiv (f32ofN m) (f32ofN r))
        (qp2 (23 - qexp (qdiv (f32ofN m) (f32ofN r))))) =
        ((m : ℚ) / r) * (2 : ℚ) ^ ((23 - qexp (qdiv (f32ofN m) (f32ofN r))).toNat : Nat) := by
      rw [qval_qmul, qval_qp2, hq_val]
      congr 1
      conv_lhs => rw [hs_eq]
      rw [zpow_natCast]
    have hK : (((m / r) * 2 ^ (23 - qexp (qdiv (f32ofN m) (f32ofN r))).toNat : Nat) : ℚ) ≤
        qval (qmul (qdiv (f32ofN m) (f32ofN r))
          (qp2 (23 - qexp (qdiv (f32ofN m) (f32ofN r))))) := by
      rw [hx_val]
      push_cast
      exact mul_le_mul_of_nonneg_right hk_lo (by positivity)
    have hrne_lo : (((m / r) * 2 ^ (23 - qexp (qdiv (f32ofN m) (f32ofN r))).toNat : Nat) : Int) ≤
        rne (qmul (qdiv (f32ofN m) (f32ofN r))
          (qp2 (23 - qexp (qdiv (f32ofN m) (f32ofN r))))) := by
      exact rne_int_le _ hx_den
        (((m / r) * 2 ^ (23 - qexp (qdiv (f32ofN m) (f32ofN r))).toNat : Nat) : Int)
        (by exact_mod_cast hK)
    have hr_lt_P : (r : ℚ) < (2 : ℚ) ^ ((23 - qexp (qdiv (f32ofN m) (f32ofN r))).toNat : Nat) := by
      by_cases he0 : 0 ≤ qexp (qdiv (f32ofN m) (f32ofN r))
      · have h1 : (r : ℚ) * (2 : ℚ) ^ qexp (qdiv (f32ofN m) (f32ofN r)) ≤ (m : ℚ) := by
          have hmono := mul_le_mul_of_nonneg_left he_lo (show (0 : ℚ) ≤ r by positivity)
          have hrm : (r : ℚ) * ((m : ℚ) / r) = m := by field_simp
          linarith [hmono, hrm.le, hrm.ge]
        have hm23 : (m : ℚ) < (2 : ℚ) ^ (23 : Int) := by
          have hmQ : (m : ℚ) < ((2 ^ 23 : Nat) : ℚ) := by exact_mod_cast hm
          have hlit : (2 : ℚ) ^ (23 : Int) = ((2 ^ 23 : Nat) : ℚ) := by norm_num
          rw [hlit]
          linarith
        have h2 : (r : ℚ) < (2 : ℚ) ^ (23 : Int) / (2 : ℚ) ^ qexp (qdiv (f32ofN m) (f32ofN r)) := by
          rw [lt_div_iff₀ (by positivity)]
          linarith
        rw [← zpow_sub₀ (two_ne_zero : (2 : ℚ) ≠ 0), hs_eq, zpow_natCast] at h2
        exact h2
      · push_neg at he0
        have h24 : 16 ≤ (23 - qexp (qdiv (f32ofN m) (f32ofN r))).toNat := by omega
        have h16 : (2 ^ 16 : Nat) ≤ 2 ^ (23 - qexp (qdiv (f32ofN m) (f32ofN r))).toNat :=
          Nat.pow_le_pow_right (by norm_num) h24
        have : (r : ℚ) < ((2 ^ (23 - qexp (qdiv (f32ofN m) (f32ofN r))).toNat : Nat) : ℚ) := by
          exact_mod_cast Nat.lt_of_lt_of_le hr2 h16
        push_cast at this
        exact this
    have hrne_hi : (rne (qmul (qdiv (f32ofN m) (f32ofN r))
        (qp2 (23 - qexp (qdiv (f32ofN m) (f32ofN r))))) : ℚ) <
        (((m / r : Nat) : ℚ) + 1) *
          (2 : ℚ) ^ ((23 - qexp (qdiv (f32ofN m) (f32ofN r))).toNat : Nat) := by
      have h1 := rne_le_add_half _ hx_den
      have h2 : qval (qmul (qdiv (f32ofN m) (f32ofN r))
          (qp2 (23 - qexp (qdiv (f32ofN m) (f32ofN r))))) ≤
          (((m / r : Nat) : ℚ) + 1 - 1 / r) *
            (2 : ℚ) ^ ((23 - qexp (qdiv (f32ofN m) (f32ofN r))).toNat : Nat) := by
        rw [hx_val]
        exact mul_le_mul_of_nonneg_right hk_hi (by positivity)
      have h3 : (1 / 2 : ℚ) < (1 / (r : ℚ)) *
          (2 : ℚ) ^ ((23 - qexp (qdiv (f32ofN m) (f32ofN r))).toNat : Nat) := by
        rw [div_mul_eq_mul_div, lt_div_iff₀ hrQ]
        have hr1Q : (1 : ℚ) ≤ r := by exact_mod_cast hr1
        nlinarith [hr_lt_P]
      have hPpos : (0 : ℚ) <
          (2 : ℚ) ^ ((23 - qexp (qdiv (f32ofN m) (f32ofN r))).toNat : Nat) := by positivity
      have hexp : (((m / r : Nat) : ℚ) + 1 - 1 / r) *
            (2 : ℚ) ^ ((23 - qexp (qdiv (f32ofN m) (f32ofN r))).toNat : Nat) =
          (((m / r : Nat) : ℚ) + 1) *
            (2 : ℚ) ^ ((23 - qexp (qdiv (f32ofN m) (f32ofN r))).toNat : Nat) -
          (1 / (r : ℚ)) *
            (2 : ℚ) ^ ((23 - qexp (qdiv (f32ofN m) (f32ofN r))).toNat : Nat) := by ring
      linarith [h1, h2, h3]
    have hv := f32round_eq (qdiv (f32ofN m) (f32ofN r)) hqd_num
    have hP_inv : (2 : ℚ) ^ (qexp (qdiv (f32ofN m) (f32ofN r)) - 23 : Int) =
        ((2 : ℚ) ^ ((23 - qexp (qdiv (f32ofN m) (f32ofN r))).toNat : Nat))⁻¹ := by
      rw [show (qexp (qdiv (f32ofN m) (f32ofN r)) - 23 : Int) =
        -(((23 - qexp (qdiv (f32ofN m) (f32ofN r))).toNat : Nat) : Int) by omega]
      rw [zpow_neg, zpow_natCast]
    have hPpos : (0 : ℚ) <
        (2 : ℚ) ^ ((23 - qexp (qdiv (f32ofN m) (f32ofN r))).toNat : Nat) := by positivity
    have hlow : ((m / r : Nat) : ℚ) ≤ qval (f32round (qdiv (f32ofN m) (f32ofN r))) := by
      rw [hv, hP_inv, ← div_eq_mul_inv, le_div_iff₀ hPpos]
      have hcast := (@Int.cast_le ℚ _ _ _).mpr hrne_lo
      rw [Int.cast_natCast] at hcast
      simp only [Nat.cast_mul, Nat.cast_pow, Nat.cast_ofNat] at hcast
      linarith
    have hhigh : qval (f32round (qdiv (f32ofN m) (f32ofN r))) < ((m / r : Nat) : ℚ) + 1 := by
      rw [hv, hP_inv, ← div_eq_mul_inv, div_lt_iff₀ hPpos]
      exact hrne_hi
    have hfl : ⌊qval (f32round (qdiv (f32ofN m) (f32ofN r)))⌋ = ((m / r : Nat) : Int) := by
      rw [Int.floor_eq_iff]
      constructor
      · exact_mod_cast hlow
      · push_cast
        exact hhigh
    show qtruncN (f32round (qdiv (f32ofN m) (f32ofN r))) = m / r
    rw [qtruncN_eq _ (f32round_den_pos _), hfl, Int.toNat_natCast]

/-- Within the ranges the engine uses (`1 ≤ tnext ≤ tsize ≤ 63`), the
computed colour index fits the 6-bit tsize field, so the codec stores it
exactly. -/
theorem tail_color_lt (tsize tnext : Nat) (h1 : 1 ≤ tnext) (h2 : tnext ≤ tsize)
    (h3 : tsize ≤ 63) : tail_color tsize tnext < 64 := by
  have htsz : 1 ≤ tsize := le_trans h1 h2
  have hofn_num : 0 < (qofN tnext).num := by
    simp only [qofN]
    exact_mod_cast h1
  have hofn_den : 0 < (qofN tnext).den := by simp [qofN]
  have hofs_num : 0 < (qofN tsize).num := by
    simp only [qofN]
    exact_mod_cast htsz
  have hofs_den : 0 < (qofN tsize).den := by simp [qofN]
  have hN_num : 0 < (f32ofN tnext).num := f32round_num_pos _ hofn_num hofn_den
  have hS_num : 0 < (f32ofN tsize).num := f32round_num_pos _ hofs_num hofs_den
  have hN_den : 0 < (f32ofN tnext).den := f32round_den_pos _
  have hS_den : 0 < (f32ofN tsize).den := f32round_den_pos _
  have hN_val : qval (f32ofN tnext) = tnext := f32round_exact_nat tnext (by omega)
  have hS_val : qval (f32ofN tsize) = tsize := f32round_exact_nat tsize (by omega)
  have hqd_num : 0 < (qdiv (f32ofN tnext) (f32ofN tsize)).num := mul_pos hN_num hS_den
  have hqd_den : 0 < (qdiv (f32ofN tnext) (f32ofN tsize)).den := mul_pos hN_den hS_num
  have hq_val : qval (qdiv (f32ofN tnext) (f32ofN tsize)) = (tnext : ℚ) / tsize := by
    rw [qval_qdiv _ _ (by omega) (by omega) (by omega), hN_val, hS_val]
  have hq_le_one : qval (qdiv (f32ofN tnext) (f32ofN tsize)) ≤ 1 := by
    rw [hq_val]
    rw [div_le_one (by exact_mod_cast htsz)]
    exact_mod_cast h2
  have hinner_le : qval (f32div (f32ofN tnext) (f32ofN tsize)) ≤ 2 := by
    have := f32round_le_two_mul _ hqd_num hqd_den
    unfold f32div
    linarith
  have hinner_nonneg : 0 ≤ qval (f32div (f32ofN tnext) (f32ofN tsize)) :=
    f32round_val_nonneg _ hqd_den
  have hinner_num : 0 < (f32div (f32ofN tnext) (f32ofN tsize)).num :=
    f32round_num_pos _ hqd_num hqd_den
  have hinner_den : 0 < (f32div (f32ofN tnext) (f32ofN tsize)).den := f32round_den_pos _
  have hof5_num : 0 < (qofN (NUM_COLORS - 1)).num := by
    simp [qofN, NUM_COLORS]
  have hof5_den : 0 < (qofN (NUM_COLORS - 1)).den := by simp [qofN]
  have h5_num : 0 < (f32ofN (NUM_COLORS - 1)).num := f32round_num_pos _ hof5_num hof5_den
  have h5_den : 0 < (f32ofN (NUM_COLORS - 1)).den := f32round_den_pos _
  have h5_val : qval (f32ofN (NUM_COLORS - 1)) = 5 := by
    have := f32round_exact_nat (NUM_COLORS - 1) (by norm_num [NUM_COLORS])
    unfold NUM_COLORS at this ⊢
    norm_num at this ⊢
    exact this
  have hq2_num : 0 < (qmul (f32ofN (NUM_COLORS - 1)) (f32div (f32ofN tnext) (f32ofN tsize))).num :=
    mul_pos h5_num hinner_num
  have hq2_den : 0 < (qmul (f32ofN (NUM_COLORS - 1)) (f32div (f32ofN tnext) (f32ofN tsize))).den :=
    mul_pos h5_den hinner_den
  have hq2_val : qval (qmul (f32ofN (NUM_COLORS - 1)) (f32div (f32ofN tnext) (f32ofN tsize))) ≤ 10 := by
    rw [qval_qmul, h5_val]
    nlinarith [hinner_le, hinner_nonneg]
  have houter : qval (f32mul (f32ofN (NUM_COLORS - 1)) (f32div (f32ofN tnext) (f32ofN tsize))) ≤ 20 := by
    have := f32round_le_two_mul _ hq2_num hq2_den
    unfold f32mul
    linarith
  have hceil : qceil (f32mul (f32ofN (NUM_COLORS - 1)) (f32div (f32ofN tnext) (f32ofN tsize))) ≤ 20 := by
    rw [qceil_eq _ (show 0 < (f32mul (f32ofN (NUM_COLORS - 1))
      (f32div (f32ofN tnext) (f32ofN tsize))).den from f32round_den_pos _)]
    exact Int.ceil_le.mpr (by exact_mod_cast houter)
  unfold tail_color
  omega

theorem sub64_small (a b : Nat) (hb : b ≤ a) (ha : a < 2 ^ 64) : sub64 a b = a - b := by
  unfold sub64
  omega

theorem sub64_zero (a : Nat) (h : a < 2 ^ 64) : sub64 a 0 = a := by
  unfold sub64
  omega

/-! ## Shape preservation and the per-cell effect of drop placement -/

/-- Two matrices with the same dimensions, counters and buffer length
(everything except possibly the cell contents). -/
def same_shape (m m' : matrix_s) : Prop :=
  m'.rows = m.rows ∧ m'.cols = m.cols ∧ m'.drop_count = m.drop_count ∧
  m'.drop_ratio = m.drop_ratio ∧ m'.data.length = m.data.length

theorem same_shape_refl (m : matrix_s) : same_shape m m :=
  ⟨rfl, rfl, rfl, rfl, rfl⟩

theorem same_shape_trans {m1 m2 m3 : matrix_s} (h1 : same_shape m1 m2)
    (h2 : same_shape m2 m3) : same_shape m1 m3 := by
  obtain ⟨a1, b1, c1, d1, e1⟩ := h1
  obtain ⟨a2, b2, c2, d2, e2⟩ := h2
  exact ⟨a2.trans a1, b2.trans b1, c2.trans c1, d2.trans d1, e2.trans e1⟩

theorem same_shape_wf {m m' : matrix_s} (h : same_shape m m') (hwf : mat_wf m) :
    mat_wf m' := by
  obtain ⟨a, b, _, _, e⟩ := h
  unfold mat_wf at *
  rw [e, a, b, hwf]

theorem same_shape_set_state (m : matrix_s) (r c s : Nat) :
    same_shape m (mat_set_state m r c s) := by
  have h := mat_set_state_fields m r c s
  exact ⟨h.1, h.2.1, h.2.2.1, h.2.2.2.1, h.2.2.2.2⟩

theorem same_shape_set_tsize (m : matrix_s) (r c t : Nat) :
    same_shape m (mat_set_tsize m r c t) := by
  have h := mat_set_tsize_fields m r c t
  exact ⟨h.1, h.2.1, h.2.2.1, h.2.2.2.1, h.2.2.2.2⟩

theorem same_shape_set_ascii (m : matrix_s) (r c a : Nat) :
    same_shape m (mat_set_ascii m r c a) := by
  have h := mat_set_ascii_fields m r c a
  exact ⟨h.1, h.2.1, h.2.2.1, h.2.2.2.1, h.2.2.2.2⟩

theorem same_shape_write_pair (m : matrix_s) (r c s t : Nat) :
    same_shape m (mat_set_tsize (mat_set_state m r c s) r c t) :=
  same_shape_trans (same_shape_set_state m r c s) (same_shape_set_tsize _ r c t)

theorem same_shape_put_cell_drop (m : matrix_s) (r c tsize : Nat) :
    same_shape m (mat_put_cell_drop m r c tsize) :=
  same_shape_write_pair m r c STATE_DROP tsize

theorem same_shape_put_cell_tail (m : matrix_s) (r c tsize tnext : Nat) :
    same_shape m (mat_put_cell_tail m r c tsize tnext) :=
  same_shape_write_pair m r c STATE_TAIL (tail_color tsize tnext)

/-- State observed after `mat_put_cell_drop`. -/
theorem mat_put_cell_drop_state (m : matrix_s) (r c tsize r' c' : Nat) (hwf : mat_wf m)
    (ht : tsize < 64) :
    mat_get_state (mat_put_cell_drop m r c tsize) r' c' =
      if r = r' ∧ c = c' ∧ r < m.rows ∧ c < m.cols then STATE_DROP
      else mat_get_state m r' c' := by
  unfold mat_put_cell_drop
  exact write_pair_state m r c STATE_DROP tsize r' c' hwf (by norm_num [STATE_DROP]) ht

/-- Tsize observed after `mat_put_cell_drop`. -/
theorem mat_put_cell_drop_tsize (m : matrix_s) (r c tsize r' c' : Nat) (hwf : mat_wf m)
    (ht : tsize < 64) :
    mat_get_tsize (mat_put_cell_drop m r c tsize) r' c' =
      if r = r' ∧ c = c' ∧ r < m.rows ∧ c < m.cols then tsize
      else mat_get_tsize m r' c' := by
  unfold mat_put_cell_drop
  exact write_pair_tsize m r c STATE_DROP tsize r' c' hwf (by norm_num [STATE_DROP]) ht

/-- State observed after `mat_put_cell_tail`. -/
theorem mat_put_cell_tail_state (m : matrix_s) (r c ts tn r' c' : Nat) (hwf : mat_wf m)
    (h1 : 1 ≤ tn) (h2 : tn ≤ ts) (h3 : ts ≤ 63) :
    mat_get_state (mat_put_cell_tail m r c ts tn) r' c' =
      if r = r' ∧ c = c' ∧ r < m.rows ∧ c < m.cols then STATE_TAIL
      else mat_get_state m r' c' := by
  unfold mat_put_cell_tail
  exact write_pair_state m r c STATE_TAIL (tail_color ts tn) r' c' hwf
    (by norm_num [STATE_TAIL]) (tail_color_lt ts tn h1 h2 h3)

/-- Tsize observed after `mat_put_cell_tail`: the computed colour. -/
theorem mat_put_cell_tail_tsize (m : matrix_s) (r c ts tn r' c' : Nat) (hwf : mat_wf m)
    (h1 : 1 ≤ tn) (h2 : tn ≤ ts) (h3 : ts ≤ 63) :
    mat_get_tsize (mat_put_cell_tail m r c ts tn) r' c' =
      if r = r' ∧ c = c' ∧ r < m.rows ∧ c < m.cols then tail_color ts tn
      else mat_get_tsize m r' c' := by
  unfold mat_put_cell_tail
  exact write_pair_tsize m r c STATE_TAIL (tail_color ts tn) r' c' hwf
    (by norm_num [STATE_TAIL]) (tail_color_lt ts tn h1 h2 h3)

/-- Frame: a write pair leaves every other cell's value untouched. -/
theorem write_pair_frame (m : matrix_s) (r c s t r' c' : Nat) (hwf : mat_wf m)
    (hs : s < 4) (hne : ¬(r = r' ∧ c = c')) :
    mat_get_value (mat_set_tsize (mat_set_state m r c s) r c t) r' c' =
      mat_get_value m r' c' := by
  rw [write_pair_value m r c s t r' c' hwf hs, if_neg (by tauto)]

/-! ## The column scan of `mat_mov_col` -/

/-- A cell holding a non-NONE state is in range (out-of-range reads
return the all-zero cell). -/
theorem state_ne_none_in_range (m : matrix_s) (row col : Nat)
    (h : mat_get_state m row col ≠ STATE_NONE) : row < m.rows ∧ col < m.cols := by
  by_contra hcon
  apply h
  have hoob : m.rows ≤ row ∨ m.cols ≤ col := by omega
  have := mat_get_value_oob m row col hoob
  unfold mat_get_state
  rw [this]
  decide

/-- Effect of one `mat_mov_col` iteration: the shape is preserved, the
carried tail size stays below 64, the carried state is the state read at
the processed row, cells other than `(row, col)` and `(row + 1, col)`
are untouched, a NONE row leaves the matrix unchanged, and a non-NONE
row is cleared with its state moved one row down (the write at the
row below is discarded when it is out of range). -/
theorem mat_mov_col_step_spec (m : matrix_s) (col row : Nat) (carry : Nat × Nat × Nat)
    (hwf : mat_wf m) (hc1 : carry.1 < 64) :
    same_shape m (mat_mov_col_step m col row carry).1 ∧
    mat_wf (mat_mov_col_step m col row carry).1 ∧
    (mat_mov_col_step m col row carry).2.1 < 64 ∧
    (mat_mov_col_step m col row carry).2.2.2 = mat_get_state m row col ∧
    (∀ r' c', ¬(c' = col ∧ (r' = row ∨ r' = row + 1)) →
        mat_get_value (mat_mov_col_step m col row carry).1 r' c' =
          mat_get_value m r' c') ∧
    (mat_get_state m row col = STATE_NONE → (mat_mov_col_step m col row carry).1 = m) ∧
    (mat_get_state m row col ≠ STATE_NONE →
        mat_get_state (mat_mov_col_step m col row carry).1 row col = STATE_NONE ∧
        mat_get_state (mat_mov_col_step m col row carry).1 (row + 1) col =
          (if row + 1 < m.rows then mat_get_state m row col
           else mat_get_state m (row + 1) col)) := by
  have hst : val_get_state (mat_get_value m row col) = mat_get_state m row col := rfl
  have htz : val_get_tsize (mat_get_value m row col) = mat_get_tsize m row col := rfl
  by_cases h0 : mat_get_state m row col = STATE_NONE
  · have he : mat_mov_col_step m col row carry =
        (m, (carry.1, carry.2.1, mat_get_state m row col)) := by
      simp only [mat_mov_col_step]
      rw [hst, if_pos h0]
    rw [he]
    exact ⟨same_shape_refl m, hwf, hc1, rfl, fun _ _ _ => rfl, fun _ => rfl,
      fun hne => absurd h0 hne⟩
  · have hin := state_ne_none_in_range m row col h0
    have hs4 : mat_get_state m row col < 4 := val_get_state_lt _
    have ht64 : mat_get_tsize m row col < 64 := val_get_tsize_lt _
    have he1 : (mat_mov_col_step m col row carry).1 =
        mat_set_tsize (mat_set_state
          (mat_set_tsize (mat_set_state m (row + 1) col (mat_get_state m row col))
            (row + 1) col (mat_get_tsize m row col))
          row col STATE_NONE) row col 0 := by
      simp only [mat_mov_col_step]
      rw [hst, htz, if_neg h0]
      split_ifs <;> rfl
    have he2 : (mat_mov_col_step m col row carry).2.1 < 64 ∧
        (mat_mov_col_step m col row carry).2.2.2 = mat_get_state m row col := by
      simp only [mat_mov_col_step]
      rw [hst, htz, if_neg h0]
      split_ifs <;> exact ⟨by first | exact ht64 | exact hc1, rfl⟩
    have hsh1 : same_shape m
        (mat_set_tsize (mat_set_state m (row + 1) col (mat_get_state m row col))
          (row + 1) col (mat_get_tsize m row col)) :=
      same_shape_write_pair m (row + 1) col _ _
    have hwf1 : mat_wf (mat_set_tsize (mat_set_state m (row + 1) col
        (mat_get_state m row col)) (row + 1) col (mat_get_tsize m row col)) :=
      same_shape_wf hsh1 hwf
    have hsh : same_shape m (mat_mov_col_step m col row carry).1 := by
      rw [he1]
      exact same_shape_trans hsh1 (same_shape_write_pair _ row col _ _)
    refine ⟨hsh, same_shape_wf hsh hwf, he2.1, he2.2, ?_, fun h => absurd h h0, fun _ => ?_⟩
    · intro r' c' hne
      rw [he1, write_pair_frame _ row col STATE_NONE 0 r' c' hwf1 (by decide)
          (by tauto)]
      exact write_pair_frame m (row + 1) col _ _ r' c' hwf hs4 (by tauto)
    · constructor
      · rw [he1, write_pair_state _ row col STATE_NONE 0 row col hwf1 (by decide)
            (by decide)]
        rw [if_pos ⟨rfl, rfl, by
          rw [hsh1.1, hsh1.2.1]
          exact hin⟩]
      · rw [he1, write_pair_state _ row col STATE_NONE 0 (row + 1) col hwf1 (by decide)
            (by decide), if_neg (by omega)]
        rw [write_pair_state m (row + 1) col _ _ (row + 1) col hwf hs4 ht64]
        by_cases hrow : row + 1 < m.rows
        · rw [if_pos ⟨rfl, rfl, hrow, hin.2⟩, if_pos hrow]
        · rw [if_neg (by tauto), if_neg hrow]

/-- Invariant of the `mat_mov_col` scan after `k` iterations (rows
`m.rows - 1` down to `m.rows - k` processed): shape preserved, carried
tail size below 64, other columns untouched, rows above the last
processed row untouched, the last processed row cleared and every row
below it holding the state its upper neighbour had, and the carried
state equal to the state the last processed row had. -/
theorem mat_mov_col_go_spec (m : matrix_s) (col : Nat) (hwf : mat_wf m) :
    ∀ k, k ≤ m.rows →
    same_shape m (mat_mov_col_go m col k).1 ∧
    mat_wf (mat_mov_col_go m col k).1 ∧
    (mat_mov_col_go m col k).2.1 < 64 ∧
    (∀ r' c', c' ≠ col →
        mat_get_value (mat_mov_col_go m col k).1 r' c' = mat_get_value m r' c') ∧
    (∀ r', r' < m.rows - k →
        mat_get_value (mat_mov_col_go m col k).1 r' col = mat_get_value m r' col) ∧
    (∀ r', m.rows - k ≤ r' → r' < m.rows →
        mat_get_state (mat_mov_col_go m col k).1 r' col =
          if r' = m.rows - k then STATE_NONE else mat_get_state m (r' - 1) col) ∧
    (1 ≤ k →
        (mat_mov_col_go m col k).2.2.2 = mat_get_state m (m.rows - k) col) ∧
    (k = 0 → (mat_mov_col_go m col k).2.2.2 = STATE_NONE) := by
  intro k
  induction k with
  | zero =>
    intro _
    exact ⟨same_shape_refl m, hwf, show (0:Nat) < 64 by decide, fun _ _ _ => rfl,
      fun _ _ => rfl, fun r' h1 h2 => absurd h1 (by omega),
      fun h => absurd h (by omega), fun _ => rfl⟩
  | succ k ih =>
    intro hk
    obtain ⟨ihsh, ihwf, ihc, ihframe, ihup, ihdown, ihlast, -⟩ := ih (by omega)
    have hrow : m.rows - 1 - k = m.rows - (k + 1) := by omega
    have hgo : mat_mov_col_go m col (k + 1) =
        mat_mov_col_step (mat_mov_col_go m col k).1 col (m.rows - 1 - k)
          (mat_mov_col_go m col k).2 := rfl
    obtain ⟨ssh, swf, sc, slast, sframe, snone, smove⟩ :=
      mat_mov_col_step_spec (mat_mov_col_go m col k).1 col (m.rows - 1 - k)
        (mat_mov_col_go m col k).2 ihwf ihc
    have hρ : m.rows - 1 - k < m.rows - k := by omega
    have hsρ : mat_get_state (mat_mov_col_go m col k).1 (m.rows - 1 - k) col =
        mat_get_state m (m.rows - 1 - k) col := by
      unfold mat_get_state
      rw [ihup (m.rows - 1 - k) hρ]
    refine ⟨?_, ?_, ?_, ?_, ?_, ?_, ?_, ?_⟩
    · rw [hgo]; exact same_shape_trans ihsh ssh
    · rw [hgo]; exact swf
    · rw [hgo]; exact sc
    · intro r' c' hc'
      rw [hgo, sframe r' c' (by tauto)]
      exact ihframe r' c' hc'
    · intro r' hr'
      rw [hgo, sframe r' col (by omega)]
      exact ihup r' (by omega)
    · intro r' hge hlt
      rw [hgo]
      by_cases hcase : mat_get_state m (m.rows - 1 - k) col = STATE_NONE
      · rw [snone (by rw [hsρ]; exact hcase)]
        by_cases hr : r' = m.rows - (k + 1)
        · rw [if_pos hr]
          unfold mat_get_state
          rw [ihup r' (by omega)]
          rw [hr, ← hrow]
          exact hcase
        · rw [if_neg hr]
          rw [ihdown r' (by omega) hlt]
          by_cases hr2 : r' = m.rows - k
          · rw [if_pos hr2]
            rw [hr2]
            have : m.rows - k - 1 = m.rows - 1 - k := by omega
            rw [this]
            exact hcase.symm
          · rw [if_neg hr2]
      · have hcase' : mat_get_state (mat_mov_col_go m col k).1 (m.rows - 1 - k) col ≠
            STATE_NONE := by rw [hsρ]; exact hcase
        obtain ⟨scl, smv⟩ := smove hcase'
        by_cases hr : r' = m.rows - (k + 1)
        · rw [if_pos hr, hr, ← hrow]
          exact scl
        · rw [if_neg hr]
          by_cases hr2 : r' = m.rows - 1 - k + 1
          · rw [hr2, smv, ihsh.1]
            rw [if_pos (by omega), hsρ]
            have : m.rows - 1 - k + 1 - 1 = m.rows - 1 - k := by omega
            rw [this]
          · unfold mat_get_state
            rw [sframe r' col (by omega)]
            have := ihdown r' (by omega) hlt
            unfold mat_get_state at this
            rw [this, if_neg (by omega)]
    · intro _
      rw [hgo, slast, hsρ, hrow]
    · intro h
      exact absurd h (by omega)

/-- Characterization of `mat_mov_col`: shape preserved, other columns
untouched, every row at least 1 holds the state its upper neighbour had,
row 0 never holds a DROP (it is either cleared or overwritten with a
TAIL), and the returned flag is 1 exactly when the bottom row held a
DROP before the scan. -/
theorem mat_mov_col_spec (m : matrix_s) (col : Nat) (hwf : mat_wf m)
    (hrows : 1 ≤ m.rows) :
    same_shape m (mat_mov_col m col).1 ∧
    mat_wf (mat_mov_col m col).1 ∧
    (∀ r' c', c' ≠ col →
        mat_get_value (mat_mov_col m col).1 r' c' = mat_get_value m r' c') ∧
    (∀ r', 1 ≤ r' → r' < m.rows →
        mat_get_state (mat_mov_col m col).1 r' col = mat_get_state m (r' - 1) col) ∧
    mat_get_state (mat_mov_col m col).1 0 col ≠ STATE_DROP ∧
    (mat_mov_col m col).2 =
      (if mat_get_state m (m.rows - 1) col = STATE_DROP then 1 else 0) := by
  obtain ⟨gsh, gwf, gc, gframe, -, gdown, -, -⟩ :=
    mat_mov_col_go_spec m col hwf m.rows (le_refl _)
  have hm1 : (mat_mov_col m col).1 =
      (if (mat_mov_col_go m col m.rows).2.2.2 ≠ STATE_NONE ∧
          (mat_mov_col_go m col m.rows).2.2.1 < (mat_mov_col_go m col m.rows).2.1 then
        mat_put_cell_tail (mat_mov_col_go m col m.rows).1 0 col
          (mat_mov_col_go m col m.rows).2.1 ((mat_mov_col_go m col m.rows).2.2.1 + 1)
      else (mat_mov_col_go m col m.rows).1) := rfl
  have hm2 : (mat_mov_col m col).2 =
      (if mat_get_state m (m.rows - 1) col = STATE_DROP then 1 else 0) := rfl
  have hzero : m.rows - m.rows = 0 := by omega
  rw [hzero] at gdown
  by_cases htail : (mat_mov_col_go m col m.rows).2.2.2 ≠ STATE_NONE ∧
      (mat_mov_col_go m col m.rows).2.2.1 < (mat_mov_col_go m col m.rows).2.1
  · have hts1 : 1 ≤ (mat_mov_col_go m col m.rows).2.2.1 + 1 := by omega
    have hts2 : (mat_mov_col_go m col m.rows).2.2.1 + 1 ≤
        (mat_mov_col_go m col m.rows).2.1 := by omega
    have hts3 : (mat_mov_col_go m col m.rows).2.1 ≤ 63 := by omega
    have hput := mat_put_cell_tail_state (mat_mov_col_go m col m.rows).1 0 col
      (mat_mov_col_go m col m.rows).2.1 ((mat_mov_col_go m col m.rows).2.2.1 + 1)
    have hputv : ∀ r' c', ¬(r' = 0 ∧ c' = col) →
        mat_get_value (mat_put_cell_tail (mat_mov_col_go m col m.rows).1 0 col
            (mat_mov_col_go m col m.rows).2.1
            ((mat_mov_col_go m col m.rows).2.2.1 + 1)) r' c' =
          mat_get_value (mat_mov_col_go m col m.rows).1 r' c' := by
      intro r' c' hne
      exact write_pair_frame _ 0 col STATE_TAIL _ r' c' gwf (by decide) (by tauto)
    have hsh' : same_shape m (mat_mov_col m col).1 := by
      rw [hm1, if_pos htail]
      exact same_shape_trans gsh (same_shape_put_cell_tail _ 0 col _ _)
    refine ⟨hsh', same_shape_wf hsh' hwf, ?_, ?_, ?_, hm2⟩
    · intro r' c' hc'
      rw [hm1, if_pos htail, hputv r' c' (by tauto)]
      exact gframe r' c' hc'
    · intro r' h1 h2
      rw [hm1, if_pos htail]
      unfold mat_get_state
      rw [hputv r' col (by omega)]
      have := gdown r' (by omega) h2
      rw [if_neg (by omega)] at this
      exact this
    · rw [hm1, if_pos htail]
      rw [hput 0 col gwf hts1 hts2 hts3]
      by_cases hin : (0:Nat) = 0 ∧ col = col ∧
          0 < (mat_mov_col_go m col m.rows).1.rows ∧
          col < (mat_mov_col_go m col m.rows).1.cols
      · rw [if_pos hin]; decide
      · rw [if_neg hin]
        have := gdown 0 (by omega) (by omega)
        rw [if_pos rfl] at this
        rw [this]; decide
  · have hsh' : same_shape m (mat_mov_col m col).1 := by
      rw [hm1, if_neg htail]
      exact gsh
    refine ⟨hsh', same_shape_wf hsh' hwf, ?_, ?_, ?_, hm2⟩
    · intro r' c' hc'
      rw [hm1, if_neg htail]
      exact gframe r' c' hc'
    · intro r' h1 h2
      rw [hm1, if_neg htail]
      have := gdown r' (by omega) h2
      rw [if_neg (by omega)] at this
      exact this
    · rw [hm1, if_neg htail]
      have := gdown 0 (by omega) (by omega)
      rw [if_pos rfl] at this
      rw [this]; decide

/-! ## The advance phase of `mat_update` -/

theorem bottom_drops_le (m : matrix_s) : ∀ n c, bottom_drops m c n ≤ n := by
  intro n
  induction n with
  | zero => intro c; exact le_refl 0
  | succ n ih =>
    intro c
    unfold bottom_drops
    have := ih (c + 1)
    split <;> omega

theorem bottom_drops_congr (m1 m2 : matrix_s) :
    ∀ n c, (∀ c', c ≤ c' → c' < c + n →
      mat_get_state m1 (m1.rows - 1) c' = mat_get_state m2 (m2.rows - 1) c') →
    bottom_drops m1 c n = bottom_drops m2 c n := by
  intro n
  induction n with
  | zero => intro c _; rfl
  | succ n ih =>
    intro c h
    unfold bottom_drops
    rw [h c (le_refl c) (by omega), ih (c + 1) (fun c' h1 h2 => h c' (by omega) (by omega))]

theorem sub64_sub64 (a b d : Nat) : sub64 (sub64 a b) d = sub64 a (b + d) := by
  unfold sub64
  omega

/-- Effect of one advance-loop iteration (`drop_count -= mat_mov_col`). -/
theorem mat_advance_step_spec (m : matrix_s) (col : Nat) (hwf : mat_wf m)
    (hrows : 1 ≤ m.rows) :
    (mat_advance_step m col).rows = m.rows ∧
    (mat_advance_step m col).cols = m.cols ∧
    (mat_advance_step m col).drop_ratio = m.drop_ratio ∧
    (mat_advance_step m col).data.length = m.data.length ∧
    mat_wf (mat_advance_step m col) ∧
    (∀ r' c', c' ≠ col →
        mat_get_value (mat_advance_step m col) r' c' = mat_get_value m r' c') ∧
    (∀ r', 1 ≤ r' → r' < m.rows →
        mat_get_state (mat_advance_step m col) r' col = mat_get_state m (r' - 1) col) ∧
    mat_get_state (mat_advance_step m col) 0 col ≠ STATE_DROP ∧
    (mat_advance_step m col).drop_count =
      sub64 m.drop_count
        (if mat_get_state m (m.rows - 1) col = STATE_DROP then 1 else 0) := by
  obtain ⟨msh, mwf, mframe, mshift, mtop, mdrop⟩ := mat_mov_col_spec m col hwf hrows
  have hval : ∀ r' c', mat_get_value (mat_advance_step m col) r' c' =
      mat_get_value (mat_mov_col m col).1 r' c' := fun _ _ => rfl
  have hrows' : (mat_advance_step m col).rows = (mat_mov_col m col).1.rows := rfl
  have hcols' : (mat_advance_step m col).cols = (mat_mov_col m col).1.cols := rfl
  have hratio : (mat_advance_step m col).drop_ratio = (mat_mov_col m col).1.drop_ratio := rfl
  have hlen : (mat_advance_step m col).data.length = (mat_mov_col m col).1.data.length := rfl
  have hdc : (mat_advance_step m col).drop_count =
      sub64 (mat_mov_col m col).1.drop_count (mat_mov_col m col).2 := rfl
  refine ⟨hrows'.trans msh.1, hcols'.trans msh.2.1, hratio.trans msh.2.2.2.1,
    hlen.trans msh.2.2.2.2, ?_, ?_, ?_, ?_, ?_⟩
  · unfold mat_wf
    rw [hlen.trans msh.2.2.2.2, hrows'.trans msh.1, hcols'.trans msh.2.1, hwf]
  · intro r' c' hc'
    rw [hval]
    exact mframe r' c' hc'
  · intro r' h1 h2
    show mat_get_state (mat_mov_col m col).1 r' col = _
    exact mshift r' h1 h2
  · show mat_get_state (mat_mov_col m col).1 0 col ≠ STATE_DROP
    exact mtop
  · rw [hdc, msh.2.2.1, mdrop]

/-- Invariant of the advance loop over `n` columns starting at `c0`:
geometry preserved, untouched columns keep their values, every touched
column is shifted one row down with no DROP left in its top row, and
`drop_count` gives up one unit per touched column whose bottom row held
a DROP. -/
theorem mat_advance_go_spec :
    ∀ (n c0 : Nat) (m : matrix_s), mat_wf m → 1 ≤ m.rows → n < 2 ^ 64 - 1 →
    m.drop_count < 2 ^ 64 →
    (mat_advance_go m c0 n).rows = m.rows ∧
    (mat_advance_go m c0 n).cols = m.cols ∧
    (mat_advance_go m c0 n).drop_ratio = m.drop_ratio ∧
    (mat_advance_go m c0 n).data.length = m.data.length ∧
    mat_wf (mat_advance_go m c0 n) ∧
    (∀ r' c', c' < c0 ∨ c0 + n ≤ c' →
        mat_get_value (mat_advance_go m c0 n) r' c' = mat_get_value m r' c') ∧
    (∀ c', c0 ≤ c' → c' < c0 + n →
        (∀ r', 1 ≤ r' → r' < m.rows →
          mat_get_state (mat_advance_go m c0 n) r' c' = mat_get_state m (r' - 1) c') ∧
        mat_get_state (mat_advance_go m c0 n) 0 c' ≠ STATE_DROP) ∧
    (mat_advance_go m c0 n).drop_count = sub64 m.drop_count (bottom_drops m c0 n) := by
  intro n
  induction n with
  | zero =>
    intro c0 m hwf hrows _ hdc
    refine ⟨rfl, rfl, rfl, rfl, hwf, fun _ _ _ => rfl,
      fun c' h1 h2 => absurd h1 (by omega), ?_⟩
    show m.drop_count = sub64 m.drop_count 0
    unfold sub64
    omega
  | succ n ih =>
    intro c0 m hwf hrows hn hdc
    obtain ⟨srows, scols, sratio, slen, swf, sframe, sshift, stop, sdc⟩ :=
      mat_advance_step_spec m c0 hwf hrows
    have hgo : mat_advance_go m c0 (n + 1) =
        mat_advance_go (mat_advance_step m c0) (c0 + 1) n := rfl
    have hdc' : (mat_advance_step m c0).drop_count < 2 ^ 64 := by
      rw [sdc]
      unfold sub64
      exact Nat.mod_lt _ (by norm_num)
    obtain ⟨irows, icols, iratio, ilen, iwf, iframe, ishift, idc⟩ :=
      ih (c0 + 1) (mat_advance_step m c0) swf (by omega) (by omega) hdc'
    rw [hgo]
    refine ⟨irows.trans srows, icols.trans scols, iratio.trans sratio,
      ilen.trans slen, iwf, ?_, ?_, ?_⟩
    · intro r' c' hc'
      rw [iframe r' c' (by omega)]
      exact sframe r' c' (by omega)
    · intro c' h1 h2
      by_cases hc' : c' = c0
      · rw [hc']
        constructor
        · intro r' hr1 hr2
          have hv : mat_get_value (mat_advance_go (mat_advance_step m c0) (c0 + 1) n)
              r' c0 = mat_get_value (mat_advance_step m c0) r' c0 :=
            iframe r' c0 (by omega)
          unfold mat_get_state
          rw [hv]
          exact sshift r' hr1 hr2
        · have hv : mat_get_value (mat_advance_go (mat_advance_step m c0) (c0 + 1) n)
              0 c0 = mat_get_value (mat_advance_step m c0) 0 c0 :=
            iframe 0 c0 (by omega)
          unfold mat_get_state
          rw [hv]
          exact stop
      · have hshift := ishift c' (by omega) (by omega)
        constructor
        · intro r' hr1 hr2
          rw [srows] at hshift
          rw [hshift.1 r' hr1 hr2]
          unfold mat_get_state
          rw [sframe (r' - 1) c' hc']
        · exact hshift.2
    · rw [idc, sdc]
      have hb : (if mat_get_state m (m.rows - 1) c0 = STATE_DROP then 1 else 0) +
          bottom_drops (mat_advance_step m c0) (c0 + 1) n =
          bottom_drops m c0 (n + 1) := by
        have hcg : bottom_drops (mat_advance_step m c0) (c0 + 1) n =
            bottom_drops m (c0 + 1) n := by
          apply bottom_drops_congr
          intro c' hc1 hc2
          unfold mat_get_state
          rw [srows, sframe (m.rows - 1) c' (by omega)]
        rw [hcg]
        rfl
      rw [← hb]
      exact sub64_sub64 _ _ _

/-- The advance phase: every column shifted one row down, no DROP in
the top row, and `drop_count` decreased (with `size_t` wrap) by the
number of columns whose bottom row held a DROP. -/
theorem mat_advance_spec (m : matrix_s) (hwf : mat_wf m) (hrows : 1 ≤ m.rows)
    (hcols : m.cols < 2 ^ 64 - 1) (hdc : m.drop_count < 2 ^ 64) :
    (mat_advance m).rows = m.rows ∧
    (mat_advance m).cols = m.cols ∧
    mat_wf (mat_advance m) ∧
    (∀ c', c' < m.cols →
        (∀ r', 1 ≤ r' → r' < m.rows →
          mat_get_state (mat_advance m) r' c' = mat_get_state m (r' - 1) c') ∧
        mat_get_state (mat_advance m) 0 c' ≠ STATE_DROP) ∧
    (mat_advance m).drop_count = sub64 m.drop_count (bottom_drops m 0 m.cols) := by
  obtain ⟨arows, acols, -, -, awf, -, ashift, adc⟩ :=
    mat_advance_go_spec m.cols 0 m hwf hrows hcols hdc
  exact ⟨arows, acols, awf, fun c' hc' => ashift c' (by omega) (by omega), adc⟩

/-- When exactly one of the columns `c, ..., c+n-1` has a DROP in the
bottom row, `bottom_drops` is 1. -/
theorem bottom_drops_of_unique (m : matrix_s) (c0 : Nat) :
    ∀ n c, (∀ c', c ≤ c' → c' < c + n →
      (mat_get_state m (m.rows - 1) c' = STATE_DROP ↔ c' = c0)) →
    bottom_drops m c n = if c ≤ c0 ∧ c0 < c + n then 1 else 0 := by
  intro n
  induction n with
  | zero =>
    intro c _
    rw [if_neg (by omega)]
    rfl
  | succ n ih =>
    intro c h
    unfold bottom_drops
    rw [ih (c + 1) (fun c' h1 h2 => h c' (by omega) (by omega))]
    by_cases hc : c = c0
    · subst hc
      rw [if_pos ((h c (le_refl c) (by omega)).mpr rfl)]
      rw [if_neg (by omega), if_pos (by omega)]
    · rw [if_neg (fun hd => hc ((h c (le_refl c) (by omega)).mp hd))]
      by_cases hc2 : c + 1 ≤ c0 ∧ c0 < c + 1 + n
      · rw [if_pos hc2, if_pos (by omega)]
      · rw [if_neg hc2, if_neg (by omega)]

/-! ## The state/aux invariant: per-write preservation -/

theorem rand_int_bounds (r lo hi : Nat) (h : lo ≤ hi) :
    lo ≤ rand_int r lo hi ∧ rand_int r lo hi ≤ hi := by
  unfold rand_int
  have : r % (hi + 1 - lo) < hi + 1 - lo := Nat.mod_lt r (by omega)
  omega

theorem mat_get_value_mem (m : matrix_s) (r c : Nat) (hwf : mat_wf m) (hr : r < m.rows)
    (hc : c < m.cols) : mat_get_value m r c ∈ m.data := by
  unfold mat_get_value
  rw [if_neg (by omega), if_neg (by omega)]
  have hidx : mat_idx m r c < m.data.length := by
    rw [hwf]; exact mat_idx_lt m hr hc
  rw [List.getD_eq_getElem?_getD, List.getElem?_eq_getElem hidx]
  simp

/-- The invariant follows from its per-cell form on a well-formed grid
(every buffer entry is the value of exactly one cell). -/
theorem StateAuxInv_of_cells (m : matrix_s) (hwf : mat_wf m)
    (h : ∀ r c, r < m.rows → c < m.cols →
      mat_get_state m r c = STATE_NONE → mat_get_tsize m r c = 0) :
    StateAuxInv m := by
  intro v hv hst
  obtain ⟨i, hi, hvi⟩ := List.mem_iff_getElem.mp hv
  have hlen : i < m.rows * m.cols := by rw [← hwf]; exact hi
  have hcols : 0 < m.cols := by
    rcases Nat.eq_zero_or_pos m.cols with h0 | h0
    · rw [h0, Nat.mul_zero] at hlen; omega
    · exact h0
  have hc : i % m.cols < m.cols := Nat.mod_lt _ hcols
  have hr : i / m.cols < m.rows := by
    rw [Nat.div_lt_iff_lt_mul hcols]
    calc i < m.rows * m.cols := hlen
      _ = m.rows * m.cols := rfl
      _ ≤ m.rows * m.cols := le_refl _
  have hidx : mat_idx m (i / m.cols) (i % m.cols) = i := by
    unfold mat_idx
    have := Nat.div_add_mod i m.cols
    have hcomm : i / m.cols * m.cols = m.cols * (i / m.cols) := Nat.mul_comm _ _
    omega
  have hval : mat_get_value m (i / m.cols) (i % m.cols) = v := by
    unfold mat_get_value
    rw [if_neg (by omega), if_neg (by omega), hidx]
    rw [List.getD_eq_getElem?_getD, List.getElem?_eq_getElem hi]
    simpa using hvi
  have := h (i / m.cols) (i % m.cols) hr hc
  unfold mat_get_state mat_get_tsize at this
  rw [hval] at this
  exact this hst

/-- A single buffer write preserves the invariant when the written value
satisfies it (the bound is only needed for in-range writes; out-of-range
writes are no-ops). -/
theorem StateAuxInv_set_value (m : matrix_s) (r c v : Nat)
    (hv : r < m.rows → c < m.cols →
      val_get_state v = STATE_NONE → val_get_tsize v = 0)
    (hinv : StateAuxInv m) : StateAuxInv (mat_set_value m r c v) := by
  unfold mat_set_value
  split_ifs with h1 h2
  · exact hinv
  · exact hinv
  · intro w hw hwst
    rcases List.mem_or_eq_of_mem_set hw with h | h
    · exact hinv w h hwst
    · rw [h] at hwst ⊢
      exact hv (by omega) (by omega) hwst

/-- `mat_set_state` preserves the invariant: setting NONE also zeroes
the tsize field, and a non-NONE state makes the implication vacuous. -/
theorem StateAuxInv_set_state (m : matrix_s) (r c s : Nat) (hs : s < 4)
    (hinv : StateAuxInv m) : StateAuxInv (mat_set_state m r c s) := by
  simp only [mat_set_state]
  refine StateAuxInv_set_value m r c _ ?_ hinv
  intro _ _ hst
  have htlt : (if s = STATE_NONE then 0
      else val_get_tsize (mat_get_value m r c)) < 256 := by
    have := val_get_tsize_lt (mat_get_value m r c)
    split <;> omega
  have hd := val_new_decode (val_get_ascii (mat_get_value m r c)) s _
    (val_get_ascii_lt _) (by omega) htlt
  rw [hd.2.1] at hst
  rw [hd.2.2]
  have hs0 : s = 0 := by
    have : s % 4 = s := Nat.mod_eq_of_lt hs
    unfold STATE_NONE at hst
    omega
  rw [if_pos (by unfold STATE_NONE; omega : s = STATE_NONE)]

/-- A state/tsize write pair preserves the invariant provided the pair
itself satisfies it. -/
theorem StateAuxInv_write_pair (m : matrix_s) (r c s t : Nat) (hwf : mat_wf m)
    (hs : s < 4) (ht : t < 64) (hst : s = STATE_NONE → t = 0)
    (hinv : StateAuxInv m) :
    StateAuxInv (mat_set_tsize (mat_set_state m r c s) r c t) := by
  have hinv1 := StateAuxInv_set_state m r c s hs hinv
  have hf := mat_set_state_fields m r c s
  simp only [mat_set_tsize]
  refine StateAuxInv_set_value _ r c _ ?_ hinv1
  intro hr hc h0
  rw [hf.1] at hr
  rw [hf.2.1] at hc
  have hcell : mat_get_value (mat_set_state m r c s) r c =
      val_new (mat_get_ascii m r c) s
        (if s = STATE_NONE then 0 else mat_get_tsize m r c) := by
    rw [mat_set_state_value m r c s r c hwf, if_pos ⟨rfl, rfl, hr, hc⟩]
  have htlt : (if s = STATE_NONE then 0 else mat_get_tsize m r c) < 64 := by
    have := val_get_tsize_lt (mat_get_value m r c)
    unfold mat_get_tsize
    split <;> omega
  have hdcell := val_decode_of_lt (mat_get_ascii m r c) s _
    (val_get_ascii_lt _) hs htlt
  have hd := val_decode_of_lt
    (val_get_ascii (mat_get_value (mat_set_state m r c s) r c))
    (val_get_state (mat_get_value (mat_set_state m r c s) r c)) t
    (val_get_ascii_lt _) (val_get_state_lt _) ht
  rw [hd.2.1] at h0
  rw [hd.2.2]
  apply hst
  have : val_get_state (mat_get_value (mat_set_state m r c s) r c) = s := by
    rw [hcell]
    exact hdcell.2.1
  omega

/-- `mat_set_ascii` preserves the invariant: the state and tsize fields
are re-encoded unchanged. -/
theorem StateAuxInv_set_ascii (m : matrix_s) (r c a : Nat) (hwf : mat_wf m)
    (ha : a < 256) (hinv : StateAuxInv m) : StateAuxInv (mat_set_ascii m r c a) := by
  simp only [mat_set_ascii]
  refine StateAuxInv_set_value m r c _ ?_ hinv
  intro hr hc h0
  have hd := val_decode_of_lt a (val_get_state (mat_get_value m r c))
    (val_get_tsize (mat_get_value m r c)) ha (val_get_state_lt _) (val_get_tsize_lt _)
  rw [hd.2.1] at h0
  rw [hd.2.2]
  exact hinv (mat_get_value m r c) (mat_get_value_mem m r c hwf hr hc) h0

theorem StateAuxInv_put_cell_drop (m : matrix_s) (r c ts : Nat) (hwf : mat_wf m)
    (ht : ts < 64) (hinv : StateAuxInv m) :
    StateAuxInv (mat_put_cell_drop m r c ts) :=
  StateAuxInv_write_pair m r c STATE_DROP ts hwf (by decide) ht
    (fun h => absurd h (by decide)) hinv

theorem StateAuxInv_put_cell_tail (m : matrix_s) (r c ts tn : Nat) (hwf : mat_wf m)
    (h1 : 1 ≤ tn) (h2 : tn ≤ ts) (h3 : ts ≤ 63) (hinv : StateAuxInv m) :
    StateAuxInv (mat_put_cell_tail m r c ts tn) :=
  StateAuxInv_write_pair m r c STATE_TAIL (tail_color ts tn) hwf (by decide)
    (tail_color_lt ts tn h1 h2 h3) (fun h => absurd h (by decide)) hinv

/-! ## The state/aux invariant: preservation by the engine operations -/

theorem StateAuxInv_mov_col_step (m : matrix_s) (col row : Nat) (carry : Nat × Nat × Nat)
    (hwf : mat_wf m) (hinv : StateAuxInv m) :
    StateAuxInv (mat_mov_col_step m col row carry).1 := by
  have hst : val_get_state (mat_get_value m row col) = mat_get_state m row col := rfl
  have htz : val_get_tsize (mat_get_value m row col) = mat_get_tsize m row col := rfl
  by_cases h0 : mat_get_state m row col = STATE_NONE
  · have he : (mat_mov_col_step m col row carry).1 = m := by
      simp only [mat_mov_col_step]
      rw [hst, if_pos h0]
    rw [he]
    exact hinv
  · have he1 : (mat_mov_col_step m col row carry).1 =
        mat_set_tsize (mat_set_state
          (mat_set_tsize (mat_set_state m (row + 1) col (mat_get_state m row col))
            (row + 1) col (mat_get_tsize m row col))
          row col STATE_NONE) row col 0 := by
      simp only [mat_mov_col_step]
      rw [hst, htz, if_neg h0]
      split_ifs <;> rfl
    have hwf1 : mat_wf (mat_set_tsize (mat_set_state m (row + 1) col
        (mat_get_state m row col)) (row + 1) col (mat_get_tsize m row col)) :=
      same_shape_wf (same_shape_write_pair m (row + 1) col _ _) hwf
    rw [he1]
    refine StateAuxInv_write_pair _ row col STATE_NONE 0 hwf1 (by decide) (by decide)
      (fun _ => rfl) ?_
    exact StateAuxInv_write_pair m (row + 1) col _ _ hwf (val_get_state_lt _)
      (val_get_tsize_lt _) (fun h => absurd h h0) hinv

theorem StateAuxInv_mov_col_go (m : matrix_s) (col : Nat) (hwf : mat_wf m)
    (hinv : StateAuxInv m) : ∀ k,
    mat_wf (mat_mov_col_go m col k).1 ∧ (mat_mov_col_go m col k).2.1 < 64 ∧
    StateAuxInv (mat_mov_col_go m col k).1 := by
  intro k
  induction k with
  | zero => exact ⟨hwf, show (0:Nat) < 64 by decide, hinv⟩
  | succ k ih =>
    obtain ⟨iwf, ic, iinv⟩ := ih
    have hgo : mat_mov_col_go m col (k + 1) =
        mat_mov_col_step (mat_mov_col_go m col k).1 col (m.rows - 1 - k)
          (mat_mov_col_go m col k).2 := rfl
    obtain ⟨-, swf, sc, -, -, -, -⟩ :=
      mat_mov_col_step_spec (mat_mov_col_go m col k).1 col (m.rows - 1 - k)
        (mat_mov_col_go m col k).2 iwf ic
    refine ⟨by rw [hgo]; exact swf, by rw [hgo]; exact sc, ?_⟩
    rw [hgo]
    exact StateAuxInv_mov_col_step _ col (m.rows - 1 - k) _ iwf iinv

theorem StateAuxInv_mov_col (m : matrix_s) (col : Nat) (hwf : mat_wf m)
    (hinv : StateAuxInv m) :
    mat_wf (mat_mov_col m col).1 ∧ StateAuxInv (mat_mov_col m col).1 := by
  obtain ⟨gwf, gc, ginv⟩ := StateAuxInv_mov_col_go m col hwf hinv m.rows
  have hm1 : (mat_mov_col m col).1 =
      (if (mat_mov_col_go m col m.rows).2.2.2 ≠ STATE_NONE ∧
          (mat_mov_col_go m col m.rows).2.2.1 < (mat_mov_col_go m col m.rows).2.1 then
        mat_put_cell_tail (mat_mov_col_go m col m.rows).1 0 col
          (mat_mov_col_go m col m.rows).2.1 ((mat_mov_col_go m col m.rows).2.2.1 + 1)
      else (mat_mov_col_go m col m.rows).1) := rfl
  rw [hm1]
  split_ifs with h
  · exact ⟨same_shape_wf (same_shape_put_cell_tail _ 0 col _ _) gwf,
      StateAuxInv_put_cell_tail _ 0 col _ _ gwf (by omega) (by omega) (by omega) ginv⟩
  · exact ⟨gwf, ginv⟩

theorem StateAuxInv_advance_step (m : matrix_s) (col : Nat) (hwf : mat_wf m)
    (hinv : StateAuxInv m) :
    mat_wf (mat_advance_step m col) ∧ StateAuxInv (mat_advance_step m col) := by
  obtain ⟨cwf, cinv⟩ := StateAuxInv_mov_col m col hwf hinv
  exact ⟨cwf, fun v hv => cinv v hv⟩

theorem StateAuxInv_advance_go : ∀ (n c0 : Nat) (m : matrix_s), mat_wf m →
    StateAuxInv m →
    mat_wf (mat_advance_go m c0 n) ∧ StateAuxInv (mat_advance_go m c0 n) := by
  intro n
  induction n with
  | zero => intro c0 m hwf hinv; exact ⟨hwf, hinv⟩
  | succ n ih =>
    intro c0 m hwf hinv
    obtain ⟨swf, sinv⟩ := StateAuxInv_advance_step m c0 hwf hinv
    exact ih (c0 + 1) (mat_advance_step m c0) swf sinv

theorem StateAuxInv_advance (m : matrix_s) (hwf : mat_wf m) (hinv : StateAuxInv m) :
    mat_wf (mat_advance m) ∧ StateAuxInv (mat_advance m) :=
  StateAuxInv_advance_go m.cols 0 m hwf hinv

theorem StateAuxInv_add_drop_go (col tsize : Nat) (h3 : tsize ≤ 63) :
    ∀ (n : Nat) (m : matrix_s) (row : Int) (i : Nat), mat_wf m → StateAuxInv m →
    i + n = tsize + 1 →
    mat_wf (mat_add_drop_go col tsize n m row i) ∧
    StateAuxInv (mat_add_drop_go col tsize n m row i) := by
  intro n
  induction n with
  | zero => intro m row i hwf hinv _; exact ⟨hwf, hinv⟩
  | succ n ih =>
    intro m row i hwf hinv hin
    simp only [mat_add_drop_go]
    split_ifs with h1 h2 h3'
    · exact ⟨hwf, hinv⟩
    · exact ih m (row - 1) (i + 1) hwf hinv (by omega)
    · have hwf' : mat_wf (mat_put_cell_drop m row.toNat col tsize) :=
        same_shape_wf (same_shape_put_cell_drop m row.toNat col tsize) hwf
      have hinv' : StateAuxInv (mat_put_cell_drop m row.toNat col tsize) :=
        StateAuxInv_put_cell_drop m row.toNat col tsize hwf (by omega) hinv
      exact ih _ (row - 1) (i + 1) hwf' hinv' (by omega)
    · have hwf' : mat_wf (mat_put_cell_tail m row.toNat col tsize i) :=
        same_shape_wf (same_shape_put_cell_tail m row.toNat col tsize i) hwf
      have hinv' : StateAuxInv (mat_put_cell_tail m row.toNat col tsize i) :=
        StateAuxInv_put_cell_tail m row.toNat col tsize i hwf (by omega) (by omega)
          h3 hinv
      exact ih _ (row - 1) (i + 1) hwf' hinv' (by omega)

theorem StateAuxInv_add_drop (m : matrix_s) (row : Int) (col tsize : Nat)
    (hwf : mat_wf m) (hinv : StateAuxInv m) (h3 : tsize ≤ 63) :
    mat_wf (mat_add_drop m row col tsize) ∧ StateAuxInv (mat_add_drop m row col tsize) :=
  StateAuxInv_add_drop_go col tsize h3 (tsize + 1) m row 0 hwf hinv (by omega)

theorem StateAuxInv_spawn_go (m : matrix_s) (g : Nat → Nat × Nat) (hwf : mat_wf m)
    (hinv : StateAuxInv m) : ∀ n,
    mat_wf (mat_update_spawn_go m g n) ∧ StateAuxInv (mat_update_spawn_go m g n) := by
  intro n
  induction n with
  | zero => exact ⟨hwf, hinv⟩
  | succ n ih =>
    have hts : rand_int (g n).2 TSIZE_MIN TSIZE_MAX ≤ 63 :=
      (rand_int_bounds (g n).2 TSIZE_MIN TSIZE_MAX (by decide)).2
    exact StateAuxInv_add_drop _ 0 _ _ ih.1 ih.2 hts

theorem StateAuxInv_spawn (m : matrix_s) (g : Nat → Nat × Nat) (hwf : mat_wf m)
    (hinv : StateAuxInv m) :
    mat_wf (mat_update_spawn m g) ∧ StateAuxInv (mat_update_spawn m g) :=
  StateAuxInv_spawn_go m g hwf hinv (spawn_attempts m)

theorem StateAuxInv_update (m : matrix_s) (g : Nat → Nat × Nat) (hwf : mat_wf m)
    (hinv : StateAuxInv m) :
    mat_wf (mat_update m g) ∧ StateAuxInv (mat_update m g) := by
  obtain ⟨swf, sinv⟩ := StateAuxInv_spawn m g hwf hinv
  exact StateAuxInv_advance _ swf sinv

theorem StateAuxInv_rain_go (m : matrix_s) (g : Nat → Nat × Nat × Nat) (hwf : mat_wf m)
    (hinv : StateAuxInv m) : ∀ n,
    mat_wf (mat_rain_go m g n) ∧ StateAuxInv (mat_rain_go m g n) := by
  intro n
  induction n with
  | zero => exact ⟨hwf, hinv⟩
  | succ n ih =>
    have hts : rand_int (g n).2.2 TSIZE_MIN TSIZE_MAX ≤ 63 :=
      (rand_int_bounds (g n).2.2 TSIZE_MIN TSIZE_MAX (by decide)).2
    exact StateAuxInv_add_drop _ _ _ _ ih.1 ih.2 hts

theorem StateAuxInv_rain (m : matrix_s) (g : Nat → Nat × Nat × Nat) (hwf : mat_wf m)
    (hinv : StateAuxInv m) :
    mat_wf (mat_rain m g) ∧ StateAuxInv (mat_rain m g) :=
  StateAuxInv_rain_go m g hwf hinv (mat_rain_num m)

theorem StateAuxInv_glitch_go (m : matrix_s) (g : Nat → Nat) (hwf : mat_wf m)
    (hinv : StateAuxInv m) : ∀ n,
    mat_wf (mat_glitch_go m g n) ∧ StateAuxInv (mat_glitch_go m g n) := by
  intro n
  induction n with
  | zero => exact ⟨hwf, hinv⟩
  | succ n ih =>
    have ha : rand_ascii (g (3 * n + 2)) < 256 := by
      have := (rand_ascii_bounds (g (3 * n + 2))).2
      omega
    exact ⟨same_shape_wf (same_shape_set_ascii _ _ _ _) ih.1,
      StateAuxInv_set_ascii _ _ _ _ ih.1 ha ih.2⟩

theorem StateAuxInv_glitch (m : matrix_s) (f : Q) (g : Nat → Nat) (hwf : mat_wf m)
    (hinv : StateAuxInv m) :
    mat_wf (mat_glitch m f g) ∧ StateAuxInv (mat_glitch m f g) :=
  StateAuxInv_glitch_go m g hwf hinv (mat_glitch_num m f)

/-! ## Characterization of `mat_fill` -/

theorem mat_fill_cell_value (m : matrix_s) (g : Nat → Nat) (r c r' c' : Nat)
    (hwf : mat_wf m) :
    mat_get_value (mat_fill_cell m g r c) r' c' =
      if r = r' ∧ c = c' ∧ r < m.rows ∧ c < m.cols then
        val_new (rand_ascii (g (r * m.cols + c))) STATE_NONE 0
      else mat_get_value m r' c' := by
  unfold mat_fill_cell
  have hwf1 : mat_wf (mat_set_state m r c STATE_NONE) := mat_set_state_wf m r c _ hwf
  have hf := mat_set_state_fields m r c STATE_NONE
  rw [mat_set_ascii_value _ r c _ r' c' hwf1, hf.1, hf.2.1]
  by_cases h : r = r' ∧ c = c' ∧ r < m.rows ∧ c < m.cols
  · rw [if_pos h, if_pos h]
    have hcell : mat_get_value (mat_set_state m r c STATE_NONE) r c =
        val_new (mat_get_ascii m r c) STATE_NONE 0 := by
      rw [mat_set_state_value m r c _ r c hwf, if_pos ⟨rfl, rfl, h.2.2⟩, if_pos rfl]
    have hd := val_decode_of_lt (mat_get_ascii m r c) STATE_NONE 0
      (val_get_ascii_lt _) (by decide) (by decide)
    have h1 : mat_get_state (mat_set_state m r c STATE_NONE) r c = STATE_NONE := by
      unfold mat_get_state
      rw [hcell]
      exact hd.2.1
    have h2 : mat_get_tsize (mat_set_state m r c STATE_NONE) r c = 0 := by
      unfold mat_get_tsize
      rw [hcell]
      exact hd.2.2
    rw [h1, h2]
  · rw [if_neg h, if_neg h, mat_set_state_value m r c _ r' c' hwf, if_neg h]

theorem same_shape_fill_cell (m : matrix_s) (g : Nat → Nat) (r c : Nat) :
    same_shape m (mat_fill_cell m g r c) :=
  same_shape_trans (same_shape_set_state m r c STATE_NONE)
    (same_shape_set_ascii _ r c _)

/-- The inner fill loop: columns `0 .. n - 1` of row `r` freshly
written. -/
theorem mat_fill_col_go_spec (m : matrix_s) (g : Nat → Nat) (r : Nat)
    (hwf : mat_wf m) : ∀ n,
    same_shape m (mat_fill_col_go m g r n) ∧
    mat_wf (mat_fill_col_go m g r n) ∧
    (∀ r' c', mat_get_value (mat_fill_col_go m g r n) r' c' =
      if r = r' ∧ c' < n ∧ r < m.rows ∧ c' < m.cols then
        val_new (rand_ascii (g (r * m.cols + c'))) STATE_NONE 0
      else mat_get_value m r' c') := by
  intro n
  induction n with
  | zero =>
    exact ⟨same_shape_refl m, hwf, fun r' c' =>
      (if_neg (fun h => absurd h.2.1 (Nat.not_lt_zero _))).symm⟩
  | succ n ih =>
    obtain ⟨ish, iwf, ival⟩ := ih
    have hgo : mat_fill_col_go m g r (n + 1) =
        mat_fill_cell (mat_fill_col_go m g r n) g r n := rfl
    refine ⟨?_, ?_, ?_⟩
    · rw [hgo]
      exact same_shape_trans ish (same_shape_fill_cell _ g r n)
    · rw [hgo]
      exact same_shape_wf (same_shape_fill_cell _ g r n) iwf
    · intro r' c'
      rw [hgo, mat_fill_cell_value _ g r n r' c' iwf, ish.1, ish.2.1]
      by_cases h : r = r' ∧ c' < n + 1 ∧ r < m.rows ∧ c' < m.cols
      · by_cases hc : c' = n
        · have hx : n < m.cols := by omega
          rw [hc, if_pos ⟨h.1, rfl, h.2.2.1, hx⟩,
            if_pos ⟨h.1, Nat.lt_succ_self n, h.2.2.1, hx⟩]
        · rw [if_pos h, if_neg (fun hcon => hc hcon.2.1.symm), ival r' c',
            if_pos ⟨h.1, by omega, h.2.2⟩]
      · have hne1 : ¬(r = r' ∧ n = c' ∧ r < m.rows ∧ n < m.cols) := by
          intro hcon
          exact h ⟨hcon.1, by omega, hcon.2.2.1, by omega⟩
        have hne2 : ¬(r = r' ∧ c' < n ∧ r < m.rows ∧ c' < m.cols) := by
          intro hcon
          exact h ⟨hcon.1, by omega, hcon.2.2⟩
        rw [if_neg hne1, ival r' c', if_neg hne2, if_neg h]

/-- The outer fill loop: rows `0 .. n - 1` freshly written. -/
theorem mat_fill_row_go_spec (m : matrix_s) (g : Nat → Nat) (hwf : mat_wf m) : ∀ n,
    same_shape m (mat_fill_row_go m g n) ∧
    mat_wf (mat_fill_row_go m g n) ∧
    (∀ r' c', mat_get_value (mat_fill_row_go m g n) r' c' =
      if r' < n ∧ r' < m.rows ∧ c' < m.cols then
        val_new (rand_ascii (g (r' * m.cols + c'))) STATE_NONE 0
      else mat_get_value m r' c') := by
  intro n
  induction n with
  | zero =>
    exact ⟨same_shape_refl m, hwf, fun r' c' =>
      (if_neg (fun h => absurd h.1 (Nat.not_lt_zero _))).symm⟩
  | succ n ih =>
    obtain ⟨ish, iwf, ival⟩ := ih
    have hgo : mat_fill_row_go m g (n + 1) =
        mat_fill_col_go (mat_fill_row_go m g n) g n (mat_fill_row_go m g n).cols := rfl
    obtain ⟨csh, cwf, cval⟩ :=
      mat_fill_col_go_spec (mat_fill_row_go m g n) g n iwf (mat_fill_row_go m g n).cols
    have hcols : (mat_fill_row_go m g n).cols = m.cols := ish.2.1
    have hrows : (mat_fill_row_go m g n).rows = m.rows := ish.1
    rw [hcols, hrows] at cval
    refine ⟨?_, ?_, ?_⟩
    · rw [hgo]
      exact same_shape_trans ish csh
    · rw [hgo]
      exact cwf
    · intro r' c'
      rw [hgo, hcols, cval r' c']
      by_cases h : r' < n + 1 ∧ r' < m.rows ∧ c' < m.cols
      · by_cases hr : r' = n
        · rw [hr, if_pos ⟨rfl, by omega, by omega, by omega⟩,
            if_pos ⟨by omega, by omega, (by omega : c' < m.cols)⟩]
        · rw [if_pos h, if_neg (fun hcon => hr hcon.1.symm), ival r' c',
            if_pos ⟨by omega, h.2⟩]
      · have hne1 : ¬(n = r' ∧ c' < m.cols ∧ n < m.rows ∧ c' < m.cols) := by
          intro hcon
          exact h ⟨by omega, by omega, hcon.2.1⟩
        have hne2 : ¬(r' < n ∧ r' < m.rows ∧ c' < m.cols) := by
          intro hcon
          exact h ⟨by omega, hcon.2⟩
        rw [if_neg hne1, ival r' c', if_neg hne2, if_neg h]

/-- `mat_fill` rewrites every cell with state NONE, zero tsize and a
fresh random character (one `rand()` per cell in row-major order). -/
theorem mat_fill_spec (m : matrix_s) (g : Nat → Nat) (hwf : mat_wf m) :
    same_shape m (mat_fill m g) ∧
    mat_wf (mat_fill m g) ∧
    (∀ r' c', r' < m.rows → c' < m.cols →
      mat_get_value (mat_fill m g) r' c' =
        val_new (rand_ascii (g (r' * m.cols + c'))) STATE_NONE 0) := by
  obtain ⟨fsh, fwf, fval⟩ := mat_fill_row_go_spec m g hwf m.rows
  refine ⟨fsh, fwf, fun r' c' hr hc => ?_⟩
  show mat_get_value (mat_fill_row_go m g m.rows) r' c' = _
  rw [fval r' c', if_pos ⟨hr, hr, hc⟩]

/-- Field-level form of `mat_fill_spec`. -/
theorem mat_fill_fields (m : matrix_s) (g : Nat → Nat) (hwf : mat_wf m)
    (r c : Nat) (hr : r < m.rows) (hc : c < m.cols) :
    mat_get_state (mat_fill m g) r c = STATE_NONE ∧
    mat_get_tsize (mat_fill m g) r c = 0 ∧
    mat_get_ascii (mat_fill m g) r c = rand_ascii (g (r * m.cols + c)) := by
  obtain ⟨-, -, fval⟩ := mat_fill_spec m g hwf
  have ha : rand_ascii (g (r * m.cols + c)) < 256 := by
    have := (rand_ascii_bounds (g (r * m.cols + c))).2
    omega
  have hd := val_decode_of_lt (rand_ascii (g (r * m.cols + c))) STATE_NONE 0
    ha (by decide) (by decide)
  unfold mat_get_state mat_get_tsize mat_get_ascii
  rw [fval r c hr hc]
  exact ⟨hd.2.1, hd.2.2, hd.1⟩

/-! ## The glitch mutator: frame properties -/

theorem mat_glitch_go_frame (m : matrix_s) (g : Nat → Nat) (hwf : mat_wf m) : ∀ n,
    same_shape m (mat_glitch_go m g n) ∧
    mat_wf (mat_glitch_go m g n) ∧
    (∀ r c, mat_get_state (mat_glitch_go m g n) r c = mat_get_state m r c) ∧
    (∀ r c, mat_get_tsize (mat_glitch_go m g n) r c = mat_get_tsize m r c) := by
  intro n
  induction n with
  | zero => exact ⟨same_shape_refl m, hwf, fun _ _ => rfl, fun _ _ => rfl⟩
  | succ n ih =>
    obtain ⟨ish, iwf, ist, its⟩ := ih
    have ha : rand_ascii (g (3 * n + 2)) < 256 := by
      have := (rand_ascii_bounds (g (3 * n + 2))).2
      omega
    have hgo : mat_glitch_go m g (n + 1) =
        mat_set_ascii (mat_glitch_go m g n) (g (3 * n) % (mat_glitch_go m g n).rows)
          (g (3 * n + 1) % (mat_glitch_go m g n).cols)
          (rand_ascii (g (3 * n + 2))) := rfl
    refine ⟨?_, ?_, ?_, ?_⟩
    · rw [hgo]
      exact same_shape_trans ish (same_shape_set_ascii _ _ _ _)
    · rw [hgo]
      exact same_shape_wf (same_shape_set_ascii _ _ _ _) iwf
    · intro r c
      rw [hgo, mat_set_ascii_state _ _ _ _ r c iwf ha]
      exact ist r c
    · intro r c
      rw [hgo, mat_set_ascii_tsize _ _ _ _ r c iwf ha]
      exact its r c

/-- The glitch phase only rewrites characters: states, tsizes, the
dimensions and the drop counter are untouched. -/
theorem mat_glitch_frame (m : matrix_s) (f : Q) (g : Nat → Nat) (hwf : mat_wf m) :
    same_shape m (mat_glitch m f g) ∧
    mat_wf (mat_glitch m f g) ∧
    (∀ r c, mat_get_state (mat_glitch m f g) r c = mat_get_state m r c) ∧
    (∀ r c, mat_get_tsize (mat_glitch m f g) r c = mat_get_tsize m r c) :=
  mat_glitch_go_frame m g hwf (mat_glitch_num m f)

/-- A zero fraction makes the glitch a no-op (the rounded product has a
zero numerator, so the draw count is zero and the loop never runs). -/
theorem mat_glitch_zero (m : matrix_s) (f : Q) (g : Nat → Nat) (hf : f.num = 0) :
    mat_glitch m f g = m := by
  have hnum : mat_glitch_num m f = 0 := by
    unfold mat_glitch_num f32mul
    have hmul : (qmul f (f32ofN (m.rows * m.cols))).num = 0 := by
      simp [qmul, hf]
    unfold f32round
    rw [if_pos (by omega)]
    rfl
  unfold mat_glitch
  rw [hnum]
  rfl

/-! ## Reachable grids are well-formed and satisfy the invariant -/

theorem reachable_wf_inv (m : matrix_s) (h : Reachable m) :
    mat_wf m ∧ StateAuxInv m := by
  induction h with
  | fill m g hwf =>
    obtain ⟨fsh, fwf, -⟩ := mat_fill_spec m g hwf
    refine ⟨fwf, StateAuxInv_of_cells _ fwf ?_⟩
    intro r c hr hc _
    have hr' : r < m.rows := by rw [← fsh.1]; exact hr
    have hc' : c < m.cols := by rw [← fsh.2.1]; exact hc
    exact (mat_fill_fields m g hwf r c hr' hc').2.1
  | update m g _ ih => exact StateAuxInv_update m g ih.1 ih.2
  | glitch m f g _ ih => exact StateAuxInv_glitch m f g ih.1 ih.2
  | rain m g _ ih => exact StateAuxInv_rain m g ih.1 ih.2

/-! ## The claims -/

/-- C1: the source increments `drop_count` on every spawn even when the
drop lands on a cell that already holds a DROP, so after a tick in which
spawns collide the counter exceeds the number of DROP cells: on a fresh
2-by-4 grid with ratio 1/2 and all spawn draws hitting column 0, one
tick leaves `drop_count = 3` while the grid holds exactly one DROP
cell.  The claimed invariant `drop_count = count of DROP cells` fails
on a reachable state. -/
theorem drop_count_overcount :
    Reachable (mat_update c1m (fun _ => (0, 0))) ∧
    (mat_update c1m (fun _ => (0, 0))).drop_count = 3 ∧
    mat_count_drops (mat_update c1m (fun _ => (0, 0))) = 1 :=
  ⟨Reachable.update c1m (fun _ => (0, 0))
      (Reachable.fill c1base (fun _ => 0) rfl),
    by decide, by decide⟩

/-- C2: amended spawn-rate formula.  When `drop_count` does not exceed
the target (and the quantities are in the exactly-representable float
range), the tick attempts `(target - drop_count) / rows + 1` spawns,
where the target is the truncated single-precision product
`(size_t)((float)(cols * rows) * ratio)`. -/
theorem spawn_attempts_formula (m : matrix_s)
    (hdc : m.drop_count ≤ mat_update_desired m)
    (hdes : mat_update_desired m < 2 ^ 23)
    (hr1 : 1 ≤ m.rows) (hr2 : m.rows < 2 ^ 16) :
    spawn_attempts m = (mat_update_desired m - m.drop_count) / m.rows + 1 := by
  unfold spawn_attempts mat_update_to_add
  have hmiss : mat_update_missing m = mat_update_desired m - m.drop_count := by
    unfold mat_update_missing
    exact sub64_small _ _ hdc (by omega)
  rw [hmiss, qtruncN_f32div _ _ (by omega) hr1 hr2]

/-- C2 witness: the formula at a concrete 2-by-2 grid with ratio 1/2
(target 2, no drops): 2 spawn attempts. -/
theorem spawn_attempts_formula_witness :
    spawn_attempts w2m = (mat_update_desired w2m - w2m.drop_count) / w2m.rows + 1 :=
  spawn_attempts_formula w2m (by decide) (by decide) (by decide) (by decide)

/-- C2 counterexample: with `drop_count` above the target the `size_t`
subtraction wraps, and one tick attempts `2^63 + 1` spawns instead of
actioning no deficit. -/
theorem spawn_attempts_explosion :
    mat_update_desired c2m = 0 ∧ c2m.drop_count = 1 ∧
    spawn_attempts c2m = 2 ^ 63 + 1 := by
  refine ⟨by decide, rfl, by decide⟩

/-- C3: placing a drop at row 5, column 0, tail length 3 on an
otherwise-empty 10-by-1 grid: DROP at row 5, TAIL at rows 4, 3, 2 with
strictly increasing colour index `ceil(5 * i / 3)` (2, 4, 5, all within
the 6-colour palette), and every other row left in NONE state. -/
theorem place_drop_deterministic :
    mat_get_state g10d 5 0 = STATE_DROP ∧
    mat_get_state g10d 4 0 = STATE_TAIL ∧
    mat_get_state g10d 3 0 = STATE_TAIL ∧
    mat_get_state g10d 2 0 = STATE_TAIL ∧
    mat_get_tsize g10d 4 0 < mat_get_tsize g10d 3 0 ∧
    mat_get_tsize g10d 3 0 < mat_get_tsize g10d 2 0 ∧
    mat_get_tsize g10d 4 0 = (5 * 1 + 3 - 1) / 3 ∧
    mat_get_tsize g10d 3 0 = (5 * 2 + 3 - 1) / 3 ∧
    mat_get_tsize g10d 2 0 = (5 * 3 + 3 - 1) / 3 ∧
    mat_get_tsize g10d 2 0 ≤ 5 ∧
    (List.all [0, 1, 6, 7, 8, 9] fun r => mat_get_state g10d r 0 == STATE_NONE) =
      true := by decide

/-- C4: with a single DROP in the bottom row, advancing all columns
decrements `drop_count` by exactly 1, and every DROP of the new frame
comes from a DROP one row up in the old frame that was not in the
bottom row: nothing derived from the exited drop remains. -/
theorem drop_exit_accounting (m : matrix_s) (c0 : Nat) (hwf : mat_wf m)
    (hrows : 1 ≤ m.rows) (hcols : m.cols < 2 ^ 64 - 1)
    (hdc1 : 1 ≤ m.drop_count) (hdc2 : m.drop_count < 2 ^ 64) (hc0 : c0 < m.cols)
    (huniq : ∀ c', c' < m.cols →
      (mat_get_state m (m.rows - 1) c' = STATE_DROP ↔ c' = c0)) :
    (mat_advance m).drop_count = m.drop_count - 1 ∧
    (∀ r c, r < m.rows → c < m.cols →
      mat_get_state (mat_advance m) r c = STATE_DROP →
      1 ≤ r ∧ r - 1 < m.rows - 1 ∧ mat_get_state m (r - 1) c = STATE_DROP) := by
  obtain ⟨arows, acols, awf, ashift, adc⟩ := mat_advance_spec m hwf hrows hcols hdc2
  have hbd : bottom_drops m 0 m.cols = 1 := by
    rw [bottom_drops_of_unique m c0 m.cols 0 (fun c' h1 h2 => huniq c' (by omega)),
      if_pos ⟨Nat.zero_le _, by omega⟩]
  constructor
  · rw [adc, hbd]
    unfold sub64
    omega
  · intro r c hr hc hst
    obtain ⟨sshift, stop⟩ := ashift c hc
    rcases Nat.eq_zero_or_pos r with rfl | hpos
    · exact absurd hst stop
    · exact ⟨hpos, by omega, by rw [← sshift r hpos hr]; exact hst⟩

/-- C4 witness: a 2-by-1 grid with a bottom-row DROP and
`drop_count = 1`: the advance leaves `drop_count = 0`. -/
theorem drop_exit_accounting_witness :
    (mat_advance c4m).drop_count = c4m.drop_count - 1 :=
  (drop_exit_accounting c4m 0 rfl (by decide) (by decide) (by decide)
    (by decide) (by decide) (by decide)).1

/-- C5: amended bounds guard.  The accessors only check the upper
bounds: whenever `row >= rows` or `col >= cols` (as signed comparisons)
the read returns the zero cell and the write is a no-op, for any value
of the other coordinate. -/
theorem oob_upper_guard (m : matrix_s) (row col : Int) (v : Nat)
    (h : (m.rows : Int) ≤ row ∨ (m.cols : Int) ≤ col) :
    mat_get_value_c m row col = some 0 ∧ mat_set_value_c m row col v = some m := by
  constructor
  · unfold mat_get_value_c
    rcases h with h | h
    · rw [if_pos h]
    · by_cases h2 : (m.rows : Int) ≤ row
      · rw [if_pos h2]
      · rw [if_neg h2, if_pos h]
  · unfold mat_set_value_c
    rcases h with h | h
    · rw [if_pos h]
    · by_cases h2 : (m.rows : Int) ≤ row
      · rw [if_pos h2]
      · rw [if_neg h2, if_pos h]

/-- C5 witness: reading and writing row 2 of a 2-row grid. -/
theorem oob_upper_guard_witness :
    mat_get_value_c c5m 2 0 = some 0 ∧ mat_set_value_c c5m 2 0 999 = some c5m :=
  oob_upper_guard c5m 2 0 999 (Or.inl (by decide))

/-- C5 counterexample: negative coordinates pass the guards.
`get(1, -1)` on a 2-by-2 grid reads cell (0, 1) (value 37, not the
neutral cell), the matching `set` writes that cell (not a no-op), and
`get(-1, 0)` indexes before the buffer: undefined behaviour. -/
theorem negative_coordinates_unguarded :
    mat_get_value_c c5m 1 (-1) = some 37 ∧
    mat_get_value_c c5m 1 (-1) ≠ some 0 ∧
    mat_set_value_c c5m 1 (-1) 999 ≠ some c5m ∧
    mat_get_value_c c5m (-1) 0 = none := by decide

/-- C6: amended fill.  After `mat_fill` every in-range cell has state
NONE and character `rand_ascii` of its own draw, which lies in
[32, 125]: the value 126 is never produced (the source computes
`MAX(32, rand() % 126)`, not a draw from [32, 126]). -/
theorem fill_cell_spec (m : matrix_s) (g : Nat → Nat) (r c : Nat) (hwf : mat_wf m)
    (hr : r < m.rows) (hc : c < m.cols) :
    mat_get_state (mat_fill m g) r c = STATE_NONE ∧
    mat_get_ascii (mat_fill m g) r c = rand_ascii (g (r * m.cols + c)) ∧
    32 ≤ mat_get_ascii (mat_fill m g) r c ∧
    mat_get_ascii (mat_fill m g) r c ≤ 125 := by
  obtain ⟨h1, h2, h3⟩ := mat_fill_fields m g hwf r c hr hc
  refine ⟨h1, h3, ?_, ?_⟩ <;> rw [h3]
  · exact (rand_ascii_bounds _).1
  · exact (rand_ascii_bounds _).2

/-- C6 witness: cell (0, 0) of a freshly filled 2-by-4 grid under the
all-zero draw stream: NONE with the space character. -/
theorem fill_cell_spec_witness :
    mat_get_state (mat_fill c1base (fun _ => 0)) 0 0 = STATE_NONE ∧
    mat_get_ascii (mat_fill c1base (fun _ => 0)) 0 0 = rand_ascii 0 ∧
    32 ≤ mat_get_ascii (mat_fill c1base (fun _ => 0)) 0 0 ∧
    mat_get_ascii (mat_fill c1base (fun _ => 0)) 0 0 ≤ 125 :=
  fill_cell_spec c1base (fun _ => 0) 0 0 rfl (by decide) (by decide)

/-- C6 counterexample: over one full period of `rand() % 126` the
character 126 is never produced and 32 is produced 33 times (125 once):
the distribution is not uniform on [32, 126]. -/
theorem rand_ascii_gap :
    ((List.range 126).map rand_ascii).count 126 = 0 ∧
    ((List.range 126).map rand_ascii).count 32 = 33 ∧
    ((List.range 126).map rand_ascii).count 125 = 1 := by decide

/-- C7: the codec round-trips on every valid triple: character in
[32, 126], state in {NONE, DROP, TAIL}, aux in [0, 63]. -/
theorem codec_roundtrip (c s a : Nat) (hc1 : 32 ≤ c) (hc2 : c ≤ 126) (hs : s ≤ 2)
    (ha : a ≤ 63) :
    val_get_ascii (val_new c s a) = c ∧ val_get_state (val_new c s a) = s ∧
    val_get_tsize (val_new c s a) = a :=
  val_decode_of_lt c s a (by omega) (by omega) (by omega)

/-- C7 witness: the round-trip at (126, TAIL, 63). -/
theorem codec_roundtrip_witness :
    val_get_ascii (val_new 126 2 63) = 126 ∧ val_get_state (val_new 126 2 63) = 2 ∧
    val_get_tsize (val_new 126 2 63) = 63 :=
  codec_roundtrip 126 2 63 (by decide) (by decide) (by decide) (by decide)

/-- C8: on every reachable grid, a cell in NONE state has a zero aux
(tsize) field. -/
theorem reachable_state_aux_inv (m : matrix_s) (h : Reachable m) : StateAuxInv m :=
  (reachable_wf_inv m h).2

/-- C8 witness: the invariant applied to the space cell of a freshly
filled grid. -/
theorem reachable_state_aux_inv_witness : val_get_tsize 32 = 0 :=
  reachable_state_aux_inv c1m
    (Reachable.fill c1base (fun _ => 0) rfl) 32 (by decide) (by decide)

/-- C9: amended glitch frame.  Each draw overwrites only the drawn
cell's character: every cell's state and aux fields, the dimensions and
`drop_count` are untouched, and a zero fraction leaves the grid
identical; but the number of draws is the truncated single-precision
product, not the exact floor. -/
theorem glitch_frame_spec (m : matrix_s) (f : Q) (g : Nat → Nat) (hwf : mat_wf m) :
    (∀ r c, mat_get_state (mat_glitch m f g) r c = mat_get_state m r c) ∧
    (∀ r c, mat_get_tsize (mat_glitch m f g) r c = mat_get_tsize m r c) ∧
    (mat_glitch m f g).rows = m.rows ∧
    (mat_glitch m f g).cols = m.cols ∧
    (mat_glitch m f g).drop_count = m.drop_count ∧
    (f.num = 0 → mat_glitch m f g = m) := by
  obtain ⟨gsh, -, gst, gts⟩ := mat_glitch_frame m f g hwf
  exact ⟨gst, gts, gsh.1, gsh.2.1, gsh.2.2.1, fun hf => mat_glitch_zero m f g hf⟩

/-- C9 witness: the state of cell (0, 0) survives a glitch that
rewrites its character. -/
theorem glitch_frame_spec_witness :
    mat_get_state (mat_glitch c9m ⟨1801, 2 ^ 25⟩ (fun n => if n = 2 then 65 else 0))
      0 0 = mat_get_state c9m 0 0 :=
  (glitch_frame_spec c9m ⟨1801, 2 ^ 25⟩ (fun n => if n = 2 then 65 else 0)
    (by unfold mat_wf
        rw [show c9m.data = List.replicate 18631 (val_new 32 0 0) from rfl,
          List.length_replicate]
        rfl)).1 0 0

/-- C9 counterexample: on a 31-by-601 grid with fraction 1801 / 2^25
the exact product is (2^25 - 1) / 2^25 < 1 (floor 0), but the
single-precision product rounds to 1: one draw is performed and the
grid changes, so the draw count is not `floor(fraction * rows * cols)`. -/
theorem glitch_count_rounds_up :
    mat_glitch_num c9m ⟨1801, 2 ^ 25⟩ = 1 ∧
    qfloor (qmul ⟨1801, 2 ^ 25⟩ (qofN (c9m.rows * c9m.cols))) = 0 ∧
    mat_glitch c9m ⟨1801, 2 ^ 25⟩ (fun n => if n = 2 then 65 else 0) ≠ c9m := by
  decide

/-- C10: the codec is total and truncating on all 8-bit inputs: the
character survives exactly, the state is kept modulo 4 and the aux
modulo 64 (the width of their mask fields). -/
theorem codec_total_truncating (c s a : Nat) (hc : c < 256) (hs : s < 256)
    (ha : a < 256) :
    val_get_ascii (val_new c s a) = c ∧ val_get_state (val_new c s a) = s % 4 ∧
    val_get_tsize (val_new c s a) = a % 64 :=
  val_new_decode c s a hc hs ha

/-- C10 witness: the truncating decode at (200, 250, 255). -/
theorem codec_total_truncating_witness :
    val_get_ascii (val_new 200 250 255) = 200 ∧
    val_get_state (val_new 200 250 255) = 250 % 4 ∧
    val_get_tsize (val_new 200 250 255) = 255 % 64 :=
  codec_total_truncating 200 250 255 (by decide) (by decide) (by decide)

end Charrain

